import Mathlib

/-! Verification of the mini-db-engine storage layer and B+ tree.

Shallow embedding of the repository's three core modules:

* `src/storage/fileManager.ts` — page-addressed file storage, modelled at the
  byte level (`List Nat`, each entry one byte).
* `src/storage/page.ts` — the JSON node codec (`encodePage` / `decodePage`),
  modelled with an executable UTF-8 codec and a fueled JSON parser that
  follows the JSON grammar accepted by `JSON.parse`.
* `src/index/bptree.ts` — the B+ tree (`insert` / `search` / `range` with
  leaf and internal splits), modelled with explicit state passing over the
  file-manager state; unbounded loops/recursion in the source take a fuel
  parameter here, and the public entry points supply a fuel that covers all
  terminating executions of the source.

JS strings are modelled as `List Char` (Unicode scalar values), JS numbers
occurring as tree keys as `Int` (the CLI feeds integer keys), page ids as
`Nat`.
-/

namespace MiniDB

/-- A JS string, as a list of Unicode scalar values. -/
abbrev Str := List Char

/-! ## UTF-8 (Buffer.from(json, "utf8") / buffer.toString("utf8")) -/

/-- UTF-8 encoding of one Unicode scalar value. -/
def utf8EncodeChar (c : Char) : List Nat :=
  let n := c.toNat
  if n < 0x80 then [n]
  else if n < 0x800 then [0xC0 + n / 64, 0x80 + n % 64]
  else if n < 0x10000 then
    [0xE0 + n / 4096, 0x80 + (n / 64) % 64, 0x80 + n % 64]
  else
    [0xF0 + n / 0x40000, 0x80 + (n / 4096) % 64, 0x80 + (n / 64) % 64,
      0x80 + n % 64]

/-- UTF-8 encoding of a string, as bytes. -/
def utf8Encode (s : Str) : List Nat := s.flatMap utf8EncodeChar

/-- The replacement character U+FFFD used by Node for invalid sequences. -/
def replChar : Char := Char.ofNat 0xFFFD

/-- UTF-8 decoding with fuel (one unit per produced character; callers pass
the byte count, which always suffices since a character consumes at least
one byte). -/
def utf8Decode : Nat → List Nat → List Char
  | 0, _ => []
  | _ + 1, [] => []
  | fuel + 1, b :: bs =>
    if b < 0x80 then Char.ofNat b :: utf8Decode fuel bs
    else if b < 0xC2 then replChar :: utf8Decode fuel bs
    else if b < 0xE0 then
      match bs with
      | b1 :: bs' =>
        if 0x80 ≤ b1 ∧ b1 < 0xC0 then
          Char.ofNat ((b - 0xC0) * 64 + (b1 - 0x80)) :: utf8Decode fuel bs'
        else replChar :: utf8Decode fuel bs
      | [] => [replChar]
    else if b < 0xF0 then
      match bs with
      | b1 :: b2 :: bs' =>
        if (0x80 ≤ b1 ∧ b1 < 0xC0) ∧ (0x80 ≤ b2 ∧ b2 < 0xC0) then
          Char.ofNat ((b - 0xE0) * 4096 + (b1 - 0x80) * 64 + (b2 - 0x80)) ::
            utf8Decode fuel bs'
        else replChar :: utf8Decode fuel bs
      | _ => [replChar]
    else if b < 0xF8 then
      match bs with
      | b1 :: b2 :: b3 :: bs' =>
        if (0x80 ≤ b1 ∧ b1 < 0xC0) ∧ (0x80 ≤ b2 ∧ b2 < 0xC0) ∧
            (0x80 ≤ b3 ∧ b3 < 0xC0) then
          Char.ofNat ((b - 0xF0) * 0x40000 + (b1 - 0x80) * 4096 +
              (b2 - 0x80) * 64 + (b3 - 0x80)) :: utf8Decode fuel bs'
        else replChar :: utf8Decode fuel bs
      | _ => [replChar]
    else replChar :: utf8Decode fuel bs

/-- Decode a byte block to a string, as `buffer.toString("utf8")`. -/
def utf8DecodeBytes (bs : List Nat) : Str := utf8Decode bs.length bs

/-! ## Decimal notation for numbers (JSON.stringify of an integer) -/

/-- Decimal digit character. -/
def digitChar (d : Nat) : Char := Char.ofNat (48 + d)

/-- Decimal text of a natural number: fueled digit extraction (the fuel
`n + 1` always suffices, one unit per digit). -/
def natDecAux : Nat → Nat → List Char → List Char
  | 0, _, acc => acc
  | fuel + 1, n, acc =>
    if n < 10 then digitChar n :: acc
    else natDecAux fuel (n / 10) (digitChar (n % 10) :: acc)

/-- Decimal text of a natural number, most significant digit first. -/
def natDec (n : Nat) : List Char := natDecAux (n + 1) n []

/-- Decimal text of an integer, as `JSON.stringify` prints an integral
JS number. -/
def intDec : Int → List Char
  | .ofNat n => natDec n
  | .negSucc n => '-' :: natDec (n + 1)

/-! ## JSON values and serialization -/

/-- Parsed JSON values. Numbers keep the integer part, the fraction digits
and the optional exponent exactly as parsed; the serializer below and the
node images only ever use integral numbers (empty fraction, no exponent). -/
inductive Json where
  | null
  | bool (b : Bool)
  | num (i : Int) (frac : List Nat) (exp : Option Int)
  | str (s : Str)
  | arr (xs : List Json)
  | obj (fields : List (Str × Json))

/-- Escape one character the way `JSON.stringify` escapes string contents. -/
def escChar (c : Char) : List Char :=
  if c = '"' then ['\\', '"']
  else if c = '\\' then ['\\', '\\']
  else if c.toNat = 8 then ['\\', 'b']
  else if c.toNat = 9 then ['\\', 't']
  else if c.toNat = 10 then ['\\', 'n']
  else if c.toNat = 12 then ['\\', 'f']
  else if c.toNat = 13 then ['\\', 'r']
  else if c.toNat < 32 then
    ['\\', 'u', '0', '0', digitChar (c.toNat / 16),
      if c.toNat % 16 < 10 then digitChar (c.toNat % 16)
      else Char.ofNat (87 + c.toNat % 16)]
  else [c]

/-- Serialized JSON string literal (quotes included). -/
def serStr (s : Str) : List Char := '"' :: s.flatMap escChar ++ ['"']

mutual

/-- `JSON.stringify` (no indentation: no whitespace emitted). -/
def jsonSer : Json → List Char
  | .null => "null".data
  | .bool true => "true".data
  | .bool false => "false".data
  | .num i frac exp =>
    intDec i ++
      (if frac.isEmpty then [] else '.' :: frac.map digitChar) ++
      (match exp with | none => [] | some e => 'e' :: intDec e)
  | .str s => serStr s
  | .arr xs => '[' :: jsonSerList xs ++ [']']
  | .obj fs => '{' :: jsonSerFields fs ++ ['}']

/-- Array elements, comma separated. -/
def jsonSerList : List Json → List Char
  | [] => []
  | [x] => jsonSer x
  | x :: y :: xs => jsonSer x ++ ',' :: jsonSerList (y :: xs)

/-- Object fields, comma separated. -/
def jsonSerFields : List (Str × Json) → List Char
  | [] => []
  | [(k, v)] => serStr k ++ ':' :: jsonSer v
  | (k, v) :: f :: fs => serStr k ++ ':' :: jsonSer v ++ ',' :: jsonSerFields (f :: fs)

end

/-! ## JSON parser (model of `JSON.parse`)

Recursion into nested values is fueled; `jsonParse` supplies fuel
`2 * length + 2`, which covers every input since each unit of fuel spent on
recursion is paid for by at least one consumed character per two units. -/

/-- JSON insignificant whitespace. -/
def isJsonWs (c : Char) : Bool := c = ' ' || c = '\t' || c = '\n' || c = '\r'

/-- Drop leading JSON whitespace. -/
def skipWs : List Char → List Char
  | [] => []
  | c :: cs => if isJsonWs c then skipWs cs else c :: cs

/-- ASCII digit test. -/
def isDigitChar (c : Char) : Bool := decide (48 ≤ c.toNat ∧ c.toNat ≤ 57)

/-- Accumulate a run of decimal digits (most significant first). -/
def parseDigitsAux : List Char → Nat → (Nat × List Char)
  | [], acc => (acc, [])
  | c :: cs, acc =>
    if isDigitChar c then parseDigitsAux cs (acc * 10 + (c.toNat - 48))
    else (acc, c :: cs)

/-- A run of one or more digits, collected as a digit list. -/
def parseDigitList : List Char → List Nat → (List Nat × List Char)
  | [], acc => (acc, [])
  | c :: cs, acc =>
    if isDigitChar c then parseDigitList cs (acc ++ [c.toNat - 48])
    else (acc, c :: cs)

/-- JSON integer part: `0` or a nonzero digit followed by digits. -/
def parseIntPart : List Char → Option (Nat × List Char)
  | [] => none
  | c :: cs =>
    if c = '0' then some (0, cs)
    else if isDigitChar c then some (parseDigitsAux cs (c.toNat - 48))
    else none

/-- Optional JSON fraction part `.digits`. -/
def parseFracPart : List Char → Option (List Nat × List Char)
  | [] => some ([], [])
  | c :: cs =>
    if c = '.' then
      match cs with
      | c' :: cs' =>
        if isDigitChar c' then some (parseDigitList cs' [c'.toNat - 48]) else none
      | [] => none
    else some ([], c :: cs)

/-- One or more digits as a nonnegative exponent value. -/
def parseExpDigits : List Char → Option (Nat × List Char)
  | [] => none
  | d :: cs => if isDigitChar d then some (parseDigitsAux cs (d.toNat - 48)) else none

/-- Optional JSON exponent part `e|E [+|-]? digits`. -/
def parseExpPart : List Char → Option (Option Int × List Char)
  | [] => some (none, [])
  | c :: cs =>
    if c = 'e' ∨ c = 'E' then
      match cs with
      | '+' :: cs' => (parseExpDigits cs').map fun p => (some (p.1 : Int), p.2)
      | '-' :: cs' => (parseExpDigits cs').map fun p => (some (-(p.1 : Int)), p.2)
      | cs' => (parseExpDigits cs').map fun p => (some (p.1 : Int), p.2)
    else some (none, c :: cs)

/-- JSON number: the unsigned part. -/
def parseUnsignedNumber (neg : Bool) (cs : List Char) : Option (Json × List Char) := do
  let (n, r1) ← parseIntPart cs
  let (fr, r2) ← parseFracPart r1
  let (ex, r3) ← parseExpPart r2
  some (.num (if neg then -(n : Int) else (n : Int)) fr ex, r3)

/-- JSON number. -/
def parseNumber : List Char → Option (Json × List Char)
  | [] => none
  | c :: cs' =>
    if c = '-' then parseUnsignedNumber true cs'
    else parseUnsignedNumber false (c :: cs')

/-- Hexadecimal digit value. -/
def hexVal? (c : Char) : Option Nat :=
  if 48 ≤ c.toNat ∧ c.toNat ≤ 57 then some (c.toNat - 48)
  else if 97 ≤ c.toNat ∧ c.toNat ≤ 102 then some (c.toNat - 87)
  else if 65 ≤ c.toNat ∧ c.toNat ≤ 70 then some (c.toNat - 55)
  else none

/-- Four hexadecimal digits. -/
def parseHex4 : List Char → Option (Nat × List Char)
  | c0 :: c1 :: c2 :: c3 :: cs => do
    let h0 ← hexVal? c0
    let h1 ← hexVal? c1
    let h2 ← hexVal? c2
    let h3 ← hexVal? c3
    some (((h0 * 16 + h1) * 16 + h2) * 16 + h3, cs)
  | _ => none

/-- The character for a `\uXXXX` scalar outside a surrogate pair (JS keeps
lone surrogates; they have no scalar value, so the model maps them to the
replacement character). -/
def charForScalar (n : Nat) : Char :=
  if 0xD800 ≤ n ∧ n < 0xE000 then replChar else Char.ofNat n

/-- One escape sequence after the backslash: the escape letter, the input
after it, giving the denoted character and the remaining input. A `\uXXXX`
high surrogate immediately followed by a `\uXXXX` low surrogate denotes the
combined scalar; `JSON.parse` keeps lone surrogates in the string, which
have no scalar value, so the model maps them to the replacement
character. -/
def parseEscapeSeq (e : Char) (r : List Char) : Option (Char × List Char) :=
  if e = '"' then some ('"', r)
  else if e = '\\' then some ('\\', r)
  else if e = '/' then some ('/', r)
  else if e = 'b' then some (Char.ofNat 8, r)
  else if e = 'f' then some (Char.ofNat 12, r)
  else if e = 'n' then some (Char.ofNat 10, r)
  else if e = 'r' then some (Char.ofNat 13, r)
  else if e = 't' then some (Char.ofNat 9, r)
  else if e = 'u' then
    (parseHex4 r).bind fun p =>
      if 0xD800 ≤ p.1 ∧ p.1 < 0xDC00 then
        match p.2 with
        | '\\' :: 'u' :: r2 =>
          (parseHex4 r2).bind fun q =>
            if 0xDC00 ≤ q.1 ∧ q.1 < 0xE000 then
              some (Char.ofNat (0x10000 + (p.1 - 0xD800) * 0x400 + (q.1 - 0xDC00)), q.2)
            else some (replChar, p.2)
        | _ => some (replChar, p.2)
      else some (charForScalar p.1, p.2)
  else none

/-- JSON string body after the opening quote (fuel: one unit per produced
character). -/
def parseStringBody : Nat → List Char → Option (Str × List Char)
  | 0, _ => none
  | _ + 1, [] => none
  | fuel + 1, c :: cs =>
    if c = '"' then some ([], cs)
    else if c = '\\' then
      match cs with
      | [] => none
      | e :: r =>
        (parseEscapeSeq e r).bind fun p =>
          (parseStringBody fuel p.2).map fun q => (p.1 :: q.1, q.2)
    else if c.toNat < 32 then none
    else (parseStringBody fuel cs).map fun p => (c :: p.1, p.2)

/-- What the recursive part of the parser is currently reading: a value, the
inside of an array (`elems` right after `[`, `elemsTail` the `, value … ]`
continuation with the elements read so far), or the inside of an object. -/
inductive PMode where
  | value
  | elems
  | elemsTail (acc : List Json)
  | fields
  | fieldsTail (acc : List (Str × Json))

/-- Match an expected literal continuation (e.g. `ull` after `n`). -/
def expectLit : List Char → List Char → Option (List Char)
  | [], cs => some cs
  | _ :: _, [] => none
  | l :: ls, c :: cs => if c = l then expectLit ls cs else none

/-- Skip whitespace, then split off the next character. -/
def headTail (cs : List Char) : Option (Char × List Char) :=
  match skipWs cs with
  | [] => none
  | c :: r => some (c, r)

/-- After a key string: `: value`, returning value and rest. -/
def afterKey (parseV : List Char → Option (Json × List Char)) (r1 : List Char) :
    Option (Json × List Char) :=
  (headTail r1).bind fun p => if p.1 = ':' then parseV p.2 else none

/-- The recursive core of the JSON parser, structurally recursive on the
fuel so that it reduces in the kernel. -/
def parseJ : Nat → PMode → List Char → Option (Json × List Char)
  | 0, _, _ => none
  | fuel + 1, .value, cs =>
    (headTail cs).bind fun p =>
      if p.1 = 'n' then (expectLit "ull".data p.2).map fun r' => (.null, r')
      else if p.1 = 't' then (expectLit "rue".data p.2).map fun r' => (.bool true, r')
      else if p.1 = 'f' then (expectLit "alse".data p.2).map fun r' => (.bool false, r')
      else if p.1 = '"' then (parseStringBody (fuel + 1) p.2).map fun q => (.str q.1, q.2)
      else if p.1 = '[' then parseJ fuel .elems p.2
      else if p.1 = '{' then parseJ fuel .fields p.2
      else parseNumber (p.1 :: p.2)
  | fuel + 1, .elems, cs =>
    (headTail cs).bind fun p =>
      if p.1 = ']' then some (.arr [], p.2)
      else do
        let (v, r1) ← parseJ fuel .value (p.1 :: p.2)
        parseJ fuel (.elemsTail [v]) r1
  | fuel + 1, .elemsTail acc, cs =>
    (headTail cs).bind fun p =>
      if p.1 = ',' then do
        let (v, r1) ← parseJ fuel .value p.2
        parseJ fuel (.elemsTail (acc ++ [v])) r1
      else if p.1 = ']' then some (.arr acc, p.2)
      else none
  | fuel + 1, .fields, cs =>
    (headTail cs).bind fun p =>
      if p.1 = '}' then some (.obj [], p.2)
      else if p.1 = '"' then do
        let (k, r1) ← parseStringBody (fuel + 1) p.2
        let (v, r3) ← afterKey (parseJ fuel .value) r1
        parseJ fuel (.fieldsTail [(k, v)]) r3
      else none
  | fuel + 1, .fieldsTail acc, cs =>
    (headTail cs).bind fun p =>
      if p.1 = ',' then
        (headTail p.2).bind fun p' =>
          if p'.1 = '"' then do
            let (k, r1) ← parseStringBody (fuel + 1) p'.2
            let (v, r3) ← afterKey (parseJ fuel .value) r1
            parseJ fuel (.fieldsTail (acc ++ [(k, v)])) r3
          else none
      else if p.1 = '}' then some (.obj acc, p.2)
      else none

/-- One JSON value, leading whitespace allowed. -/
def parseValue (fuel : Nat) (cs : List Char) : Option (Json × List Char) :=
  parseJ fuel .value cs

/-- `JSON.parse`: one value, surrounded only by whitespace. The fuel
`2 * length + 2` covers every input, since between two consumed fuel units
the parser always consumes at least one character. -/
def jsonParse (cs : List Char) : Option Json :=
  match parseValue (2 * cs.length + 2) cs with
  | some (v, rest) => if skipWs rest = [] then some v else none
  | none => none

/-! ## Errors

The source throws `Error` values distinguished only by message; one inductive
collects them. `outOfFuel` is the model's marker for executions longer than
the supplied fuel (the source would simply keep running); `typeConfusion`
marks field accesses on a decoded value that is not node-shaped (the source
casts the parse result unchecked, so such accesses would misbehave at use
sites; no page this program writes triggers it). -/

inductive Err where
  | corruptStore
  | pageNotFound
  | invalidPageSize
  | pageOverflow
  | emptyPage
  | malformedPage
  | badOrder
  | leafNoValues
  | typeConfusion
  | outOfFuel
deriving DecidableEq, Repr

/-! ## `src/storage/page.ts` — node type and codec -/

/-- `BTreeNodePage`. The optional `values` field distinguishes an absent
(`undefined`) field from a present array; `nextLeaf = none` is JSON `null`. -/
structure BTreeNodePage where
  id : Nat
  isLeaf : Bool
  keys : List Int
  children : List Nat
  values : Option (List Str)
  nextLeaf : Option Nat
deriving DecidableEq, Repr

/-- The JSON image of a node: the object `JSON.stringify` sees, with the
field order of every construction site in the source (`id`, `isLeaf`,
`keys`, `children`, `values`, `nextLeaf`), the `values` field omitted when
`undefined`. -/
def nodeToJson (n : BTreeNodePage) : Json :=
  .obj (("id".data, .num (.ofNat n.id) [] none) ::
    ("isLeaf".data, .bool n.isLeaf) ::
    ("keys".data, .arr (n.keys.map fun k => .num k [] none)) ::
    ("children".data, .arr (n.children.map fun c => .num (.ofNat c) [] none)) ::
    (match n.values with
     | none => []
     | some vs => [("values".data, .arr (vs.map .str))]) ++
    [("nextLeaf".data,
      match n.nextLeaf with
      | none => .null
      | some p => .num (.ofNat p) [] none)])

/-- `encodePage`: JSON-serialize the node, check the page ceiling, pad the
block with zero bytes. -/
def encodePage (node : BTreeNodePage) (pageSize : Nat) : Except Err (List Nat) :=
  let data := utf8Encode (jsonSer (nodeToJson node))
  if data.length > pageSize then .error .pageOverflow
  else .ok (data ++ List.replicate (pageSize - data.length) 0)

/-- The NUL character used as page padding. -/
def nulChar : Char := Char.ofNat 0

/-- Remove the trailing run of NUL characters (`.replace(/\0+$/g, "")`). -/
def stripTrailingNuls (s : List Char) : List Char :=
  (s.reverse.dropWhile (fun c => c = nulChar)).reverse

/-- The whitespace removed by JS `String.prototype.trim`. -/
def isJsTrimWs (c : Char) : Bool :=
  c = ' ' || c = '\t' || c = '\n' || c = '\r' ||
    c = Char.ofNat 11 || c = Char.ofNat 12 || c = Char.ofNat 0xA0 ||
    c = Char.ofNat 0x2028 || c = Char.ofNat 0x2029 || c = Char.ofNat 0xFEFF

/-- JS `String.prototype.trim`. -/
def jsTrim (s : List Char) : List Char :=
  ((s.dropWhile isJsTrimWs).reverse.dropWhile isJsTrimWs).reverse

/-- `decodePage`: decode the block as UTF-8, strip trailing NULs, report
`EmptyPage` on blank content, otherwise `JSON.parse` the text (the source
casts the result to `BTreeNodePage` without any shape validation). -/
def decodePage (buffer : List Nat) : Except Err Json :=
  let json := stripTrailingNuls (utf8DecodeBytes buffer)
  if jsTrim json = [] then .error .emptyPage
  else
    match jsonParse json with
    | some v => .ok v
    | none => .error .malformedPage

/-! Reading the fields of the decoded object, as the tree code does through
the unchecked cast. -/

/-- A JSON number that is a nonnegative integer, as a page id. -/
def asNat : Json → Option Nat
  | .num (.ofNat n) [] none => some n
  | _ => none

/-- A JSON number that is an integer, as a key. -/
def asInt : Json → Option Int
  | .num i [] none => some i
  | _ => none

/-- A JSON string. -/
def asStr : Json → Option Str
  | .str s => some s
  | _ => none

/-- Convert every element, failing if any element fails. -/
def optList {β : Type} (f : Json → Option β) : List Json → Option (List β)
  | [] => some []
  | x :: xs => do
    let b ← f x
    let bs ← optList f xs
    some (b :: bs)

/-- JS object field lookup; with duplicate keys the last occurrence wins,
as in `JSON.parse`. -/
def objGet : List (Str × Json) → Str → Option Json
  | [], _ => none
  | (k', v) :: fs, k =>
    match objGet fs k with
    | some v' => some v'
    | none => if k' = k then some v else none

/-- The node shape the tree code reads off the decoded object: `id`,
`isLeaf`, `keys`, `children` must be present with their types, `values` may
be absent, `nextLeaf` may be absent or `null` (both behave as `null` at
every use site, which tests `== null`). -/
def jsonToNode : Json → Option BTreeNodePage
  | .obj fs => do
    let idN ← (objGet fs "id".data).bind asNat
    let isLeaf ← (objGet fs "isLeaf".data).bind fun j =>
      match j with | .bool b => some b | _ => none
    let keys ← (objGet fs "keys".data).bind fun j =>
      match j with | .arr xs => optList asInt xs | _ => none
    let children ← (objGet fs "children".data).bind fun j =>
      match j with | .arr xs => optList asNat xs | _ => none
    let values ← match objGet fs "values".data with
      | none => some none
      | some (.arr xs) => (optList asStr xs).map some
      | some _ => none
    let nextLeaf ← match objGet fs "nextLeaf".data with
      | none => some none
      | some .null => some none
      | some j => (asNat j).map some
    some ⟨idN, isLeaf, keys, children, values, nextLeaf⟩
  | _ => none

/-! ## `src/storage/fileManager.ts` — byte-level page store -/

/-- The file manager state: the backing file's bytes and the next
allocatable page id. -/
structure FileManager where
  pageSize : Nat
  file : List Nat
  nextPageId : Nat
deriving DecidableEq, Repr

/-- `fs.writeSync(fd, data, 0, data.length, offset)`: overwrite bytes
starting at `offset`, extending the file (zero-filling any gap) as needed. -/
def writeBytesAt (file : List Nat) (off : Nat) (data : List Nat) : List Nat :=
  file.take off ++ List.replicate (off - file.length) 0 ++ data ++
    file.drop (off + data.length)

/-- `fs.readSync(fd, buffer, 0, count, off)` reads
`min count (length - off)` bytes. -/
def readBytesAt (file : List Nat) (off count : Nat) : List Nat :=
  (file.drop off).take count

/-- The constructor: open or create the file (the bytes are the argument;
a fresh file is `[]`), reject a length that is not a multiple of the page
size, set `nextPageId = length / pageSize`. -/
def FileManager.create (file : List Nat) (pageSize : Nat := 4096) :
    Except Err FileManager :=
  if file.length % pageSize ≠ 0 then .error .corruptStore
  else .ok ⟨pageSize, file, file.length / pageSize⟩

/-- `allocatePage`. The source performs two writes: `fs.writeFileSync(path,
empty, {flag: "r+"})`, which rewrites the first `pageSize` bytes of the
file with zeros (flag `r+` writes at position 0 without truncating), and
then `fs.writeSync` of the zero page at the correct offset
`id * pageSize`. -/
def FileManager.allocatePage (fm : FileManager) : Nat × FileManager :=
  let id := fm.nextPageId
  let empty := List.replicate fm.pageSize 0
  let f1 := writeBytesAt fm.file 0 empty
  let f2 := writeBytesAt f1 (id * fm.pageSize) empty
  (id, { fm with file := f2, nextPageId := id + 1 })

/-- `readPage`: read up to `pageSize` bytes at `id * pageSize`; throw only
when zero bytes were read; the unread remainder of the buffer stays
zero-filled. -/
def FileManager.readPage (fm : FileManager) (id : Nat) : Except Err (List Nat) :=
  let offset := id * fm.pageSize
  let readData := readBytesAt fm.file offset fm.pageSize
  if readData.length = 0 then .error .pageNotFound
  else .ok (readData ++ List.replicate (fm.pageSize - readData.length) 0)

/-- `writePage`: exact-size buffer required, then write at `id * pageSize`. -/
def FileManager.writePage (fm : FileManager) (id : Nat) (data : List Nat) :
    Except Err FileManager :=
  if data.length ≠ fm.pageSize then .error .invalidPageSize
  else .ok { fm with file := writeBytesAt fm.file (id * fm.pageSize) data }

/-! ## `src/index/bptree.ts` — the B+ tree -/

/-- The split signal propagated up the insert recursion. -/
structure InsertResult where
  promotedKey : Int
  rightPageId : Nat
deriving DecidableEq, Repr

/-- Tree state: the file manager, the current root page id and the order. -/
structure BPlusTree where
  fm : FileManager
  rootPageId : Nat
  order : Nat
deriving DecidableEq, Repr

/-- `writeNode`: encode, then write at the node's own id. -/
def writeNode (fm : FileManager) (node : BTreeNodePage) : Except Err FileManager := do
  let buffer ← encodePage node fm.pageSize
  fm.writePage node.id buffer

/-- `readNode`: read the page and decode it; the unchecked cast of the
source is modelled by `jsonToNode` (see `Err.typeConfusion`). -/
def readNode (fm : FileManager) (id : Nat) : Except Err BTreeNodePage := do
  let buffer ← fm.readPage id
  let j ← decodePage buffer
  match jsonToNode j with
  | some n => .ok n
  | none => .error .typeConfusion

/-- The constructor: reject `order < 3`, then always allocate and write a
fresh empty leaf root. -/
def BPlusTree.create (fm : FileManager) (order : Nat := 4) : Except Err BPlusTree :=
  if order < 3 then .error .badOrder
  else
    let (id, fm1) := fm.allocatePage
    let root : BTreeNodePage := ⟨id, true, [], [], some [], none⟩
    (writeNode fm1 root).map fun fm2 => ⟨fm2, id, order⟩

/-- `findChildIndex`: first index with `key < keys[i]`, computed as the
source does (advance while `key >= keys[i]`). -/
def findChildIndex (keys : List Int) (key : Int) : Nat :=
  match keys with
  | [] => 0
  | k :: ks => if key ≥ k then findChildIndex ks key + 1 else 0

/-- The leaf insert position: advance while `keys[pos] < key`. -/
def findInsertPos (keys : List Int) (key : Int) : Nat :=
  match keys with
  | [] => 0
  | k :: ks => if k < key then findInsertPos ks key + 1 else 0

/-- `array.splice(pos, 0, a)`: insert at index `pos`. -/
def spliceInsert {α : Type} (l : List α) (pos : Nat) (a : α) : List α :=
  l.take pos ++ a :: l.drop pos

/-- `splitLeaf`: `mid = ceil(keys.length / 2)`; `splice(mid)` moves the
tail keys/values to the new right leaf; the right leaf takes over the old
forward link and the left leaf now links to it; the promoted key is
`rightNode.keys[0]` (the `headD` default is never used: every split the
program performs has a nonempty right half). -/
def splitLeaf (fm : FileManager) (node : BTreeNodePage) :
    Except Err (InsertResult × FileManager) :=
  match node.values with
  | none => .error .leafNoValues
  | some vals =>
    let mid := (node.keys.length + 1) / 2
    let rightKeys := node.keys.drop mid
    let rightValues := vals.drop mid
    let (rid, fm1) := fm.allocatePage
    let left := { node with
      keys := node.keys.take mid, values := some (vals.take mid),
      nextLeaf := some rid }
    let rightNode : BTreeNodePage := ⟨rid, true, rightKeys, [], some rightValues, node.nextLeaf⟩
    do
      let fm2 ← writeNode fm1 left
      let fm3 ← writeNode fm2 rightNode
      .ok (⟨rightKeys.headD 0, rid⟩, fm3)

/-- `splitInternal`: `midIndex = floor(keys.length / 2)`; the key at
`midIndex` is promoted and dropped from both sides; the left node keeps
keys `[0, midIndex)` with children `[0, midIndex]`, the right node gets
keys and children from `midIndex + 1` on (the `getD` default is never
used: the program only splits nonempty nodes). -/
def splitInternal (fm : FileManager) (node : BTreeNodePage) :
    Except Err (InsertResult × FileManager) :=
  let midIndex := node.keys.length / 2
  let promotedKey := node.keys.getD midIndex 0
  let (rid, fm1) := fm.allocatePage
  let left := { node with
    keys := node.keys.take midIndex, children := node.children.take (midIndex + 1) }
  let rightNode : BTreeNodePage :=
    ⟨rid, false, node.keys.drop (midIndex + 1), node.children.drop (midIndex + 1),
      none, none⟩
  do
    let fm2 ← writeNode fm1 left
    let fm3 ← writeNode fm2 rightNode
    .ok (⟨promotedKey, rid⟩, fm3)

/-- `insertIntoLeaf`: overwrite in place on an exact key match, otherwise
splice key and value in at the sorted position and split on overflow
(`keys.length > order`). -/
def insertIntoLeaf (order : Nat) (fm : FileManager) (node : BTreeNodePage)
    (key : Int) (value : Str) : Except Err (Option InsertResult × FileManager) :=
  let vals := node.values.getD []
  let pos := findInsertPos node.keys key
  if node.keys[pos]? = some key then
    let node' := { node with values := some (vals.set pos value) }
    (writeNode fm node').map fun fm' => (none, fm')
  else
    let node' := { node with
      keys := spliceInsert node.keys pos key,
      values := some (spliceInsert vals pos value) }
    if node'.keys.length > order then
      (splitLeaf fm node').map fun p => (some p.1, p.2)
    else
      (writeNode fm node').map fun fm' => (none, fm')

/-- `insertRecursive`, with `insertIntoInternal` inlined in the non-leaf
branch: descend into the chosen child, then absorb a child split into this
node (splicing the promoted key at its position and the new child pointer
right of it), splitting in turn on overflow. A child that did not split
still causes the node to be rewritten unchanged. Fueled: the source's
recursion depth on any terminating execution is the tree height. -/
def insertRecursive : Nat → Nat → FileManager → Nat → Int → Str →
    Except Err (Option InsertResult × FileManager)
  | 0, _, _, _, _, _ => .error .outOfFuel
  | fuel + 1, order, fm, nodeId, key, value => do
    let node ← readNode fm nodeId
    if node.isLeaf then
      insertIntoLeaf order fm node key value
    else
      let childId := node.children.getD (findChildIndex node.keys key) 0
      let res ← insertRecursive fuel order fm childId key value
      match res with
      | (none, fm1) => (writeNode fm1 node).map fun fm2 => (none, fm2)
      | (some r, fm1) =>
        let pos := findInsertPos node.keys r.promotedKey
        let node' := { node with
          keys := spliceInsert node.keys pos r.promotedKey,
          children := spliceInsert node.children (pos + 1) r.rightPageId }
        if node'.keys.length > order then
          (splitInternal fm1 node').map fun p => (some p.1, p.2)
        else
          (writeNode fm1 node').map fun fm2 => (none, fm2)

/-- `insert`: run the recursive insert from the root; a surviving split
signal means the root itself split, so allocate a brand-new root holding
exactly the promoted key over the old root and the new right page. -/
def BPlusTree.insert (t : BPlusTree) (key : Int) (value : Str) :
    Except Err BPlusTree := do
  let res ← insertRecursive (t.fm.nextPageId + 1) t.order t.fm t.rootPageId key value
  match res with
  | (none, fm') => .ok { t with fm := fm' }
  | (some r, fm') =>
    let (nid, fm1) := fm'.allocatePage
    let newRoot : BTreeNodePage :=
      ⟨nid, false, [r.promotedKey], [t.rootPageId, r.rightPageId], none, none⟩
    (writeNode fm1 newRoot).map fun fm2 =>
      { t with fm := fm2, rootPageId := nid }

/-- `searchRecursive`: at a leaf, `findIndex` for the exact key; at an
internal node, descend per `findChildIndex`. -/
def searchRecursive : Nat → FileManager → Nat → Int → Except Err (Option Str)
  | 0, _, _, _ => .error .outOfFuel
  | fuel + 1, fm, nodeId, key => do
    let node ← readNode fm nodeId
    if node.isLeaf then
      match node.values with
      | none => .ok none
      | some vals =>
        match node.keys.findIdx? (fun k => decide (k = key)) with
        | none => .ok none
        | some idx => .ok (some (vals.getD idx []))
    else
      searchRecursive fuel fm (node.children.getD (findChildIndex node.keys key) 0) key

/-- `search` (the `get` of the public API). -/
def BPlusTree.search (t : BPlusTree) (key : Int) : Except Err (Option Str) :=
  searchRecursive (t.fm.nextPageId + 1) t.fm t.rootPageId key

/-- `findLeafForKey`: descend to the leaf that would contain the key and
return that leaf node's own `id` field. -/
def findLeafForKey : Nat → FileManager → Nat → Int → Except Err Nat
  | 0, _, _, _ => .error .outOfFuel
  | fuel + 1, fm, nodeId, key => do
    let node ← readNode fm nodeId
    if node.isLeaf then .ok node.id
    else findLeafForKey fuel fm (node.children.getD (findChildIndex node.keys key) 0) key

/-- The scan of one leaf's parallel key/value arrays: emit pairs with
`start ≤ k ≤ stop` in order; a key beyond `stop` makes the whole range call
return immediately (flag `true`). -/
def scanLeafKeys : List Int → List Str → Int → Int → (List (Int × Str) × Bool)
  | [], _, _, _ => ([], false)
  | k :: ks, vs, start, stop =>
    if k > stop then ([], true)
    else
      let rest := scanLeafKeys ks vs.tail start stop
      if k ≥ start then ((k, vs.headD []) :: rest.1, rest.2) else rest

/-- The `while (true)` walk along the leaf chain. -/
def rangeLoop : Nat → FileManager → BTreeNodePage → Int → Int →
    List (Int × Str) → Except Err (List (Int × Str))
  | 0, _, _, _, _, _ => .error .outOfFuel
  | fuel + 1, fm, node, start, stop, acc =>
    if ¬node.isLeaf ∨ node.values = none then .ok acc
    else
      let scanned := scanLeafKeys node.keys (node.values.getD []) start stop
      let acc' := acc ++ scanned.1
      if scanned.2 then .ok acc'
      else
        match node.nextLeaf with
        | none => .ok acc'
        | some nid => do
          let node' ← readNode fm nid
          rangeLoop fuel fm node' start stop acc'

/-- `range`: locate the leaf for `start`, then walk the chain. -/
def BPlusTree.range (t : BPlusTree) (start stop : Int) :
    Except Err (List (Int × Str)) := do
  let leafId ← findLeafForKey (t.fm.nextPageId + 1) t.fm t.rootPageId start
  let node ← readNode t.fm leafId
  rangeLoop (t.fm.nextPageId + 1) t.fm node start stop []

/-! ## Lemmas: characters and UTF-8 round trip -/

theorem toNat_ofNat_valid {n : Nat} (h : n < 0xD800) : (Char.ofNat n).toNat = n := by
  have hv : Nat.isValidChar n := Or.inl h
  simp [Char.ofNat, hv, Char.ofNatAux, Char.toNat, UInt32.toNat]

theorem utf8Decode_encodeChar (c : Char) (rest : List Nat) (fuel : Nat) :
    utf8Decode (fuel + 1) (utf8EncodeChar c ++ rest) = c :: utf8Decode fuel rest := by
  have hval : c.toNat < 0xD800 ∨ (0xE000 ≤ c.toNat ∧ c.toNat < 0x110000) := by
    rcases c.valid with h | h
    · exact Or.inl h
    · exact Or.inr ⟨h.1, h.2⟩
  unfold utf8EncodeChar
  by_cases h1 : c.toNat < 0x80
  · have hb : c.toNat < 0xD800 := by omega
    simp only [h1, if_pos, utf8Decode, List.cons_append, List.nil_append]
    rw [Char.ofNat_toNat]
  · by_cases h2 : c.toNat < 0x800
    · have e1 : ¬(0xC0 + c.toNat / 64 < 0x80) := by omega
      have e2 : ¬(0xC0 + c.toNat / 64 < 0xC2) := by omega
      have e3 : 0xC0 + c.toNat / 64 < 0xE0 := by omega
      have e4 : 0x80 ≤ 0x80 + c.toNat % 64 ∧ 0x80 + c.toNat % 64 < 0xC0 := by omega
      simp only [h1, h2, if_neg, if_pos, if_false, if_true, utf8Decode,
        List.cons_append, List.nil_append]
      rw [if_neg e1, if_neg e2, if_pos e3, if_pos e4]
      have : (0xC0 + c.toNat / 64 - 0xC0) * 64 + (0x80 + c.toNat % 64 - 0x80) = c.toNat := by
        omega
      rw [this, Char.ofNat_toNat]
    · by_cases h3 : c.toNat < 0x10000
      · have e1 : ¬(0xE0 + c.toNat / 4096 < 0x80) := by omega
        have e2 : ¬(0xE0 + c.toNat / 4096 < 0xC2) := by omega
        have e3 : ¬(0xE0 + c.toNat / 4096 < 0xE0) := by omega
        have e4 : 0xE0 + c.toNat / 4096 < 0xF0 := by omega
        have e5 : (0x80 ≤ 0x80 + c.toNat / 64 % 64 ∧ 0x80 + c.toNat / 64 % 64 < 0xC0) ∧
            (0x80 ≤ 0x80 + c.toNat % 64 ∧ 0x80 + c.toNat % 64 < 0xC0) := by omega
        simp only [h1, h2, h3, if_neg, if_pos, if_false, if_true, utf8Decode,
          List.cons_append, List.nil_append]
        rw [if_neg e1, if_neg e2, if_neg e3, if_pos e4, if_pos e5]
        have : (0xE0 + c.toNat / 4096 - 0xE0) * 4096 + (0x80 + c.toNat / 64 % 64 - 0x80) * 64 +
            (0x80 + c.toNat % 64 - 0x80) = c.toNat := by omega
        rw [this, Char.ofNat_toNat]
      · have hc : c.toNat < 0x110000 := by omega
        have e1 : ¬(0xF0 + c.toNat / 0x40000 < 0x80) := by omega
        have e2 : ¬(0xF0 + c.toNat / 0x40000 < 0xC2) := by omega
        have e3 : ¬(0xF0 + c.toNat / 0x40000 < 0xE0) := by omega
        have e4 : ¬(0xF0 + c.toNat / 0x40000 < 0xF0) := by omega
        have e5 : 0xF0 + c.toNat / 0x40000 < 0xF8 := by omega
        have e6 : (0x80 ≤ 0x80 + c.toNat / 4096 % 64 ∧ 0x80 + c.toNat / 4096 % 64 < 0xC0) ∧
            (0x80 ≤ 0x80 + c.toNat / 64 % 64 ∧ 0x80 + c.toNat / 64 % 64 < 0xC0) ∧
            (0x80 ≤ 0x80 + c.toNat % 64 ∧ 0x80 + c.toNat % 64 < 0xC0) := by omega
        simp only [h1, h2, h3, if_neg, if_pos, if_false, if_true, utf8Decode,
          List.cons_append, List.nil_append]
        rw [if_neg e1, if_neg e2, if_neg e3, if_neg e4, if_pos e5, if_pos e6]
        have : (0xF0 + c.toNat / 0x40000 - 0xF0) * 0x40000 +
            (0x80 + c.toNat / 4096 % 64 - 0x80) * 4096 +
            (0x80 + c.toNat / 64 % 64 - 0x80) * 64 +
            (0x80 + c.toNat % 64 - 0x80) = c.toNat := by omega
        rw [this, Char.ofNat_toNat]

theorem utf8Decode_encode_append (s : Str) (rest : List Nat) (fuel : Nat) :
    utf8Decode (s.length + fuel) (utf8Encode s ++ rest) = s ++ utf8Decode fuel rest := by
  induction s generalizing fuel with
  | nil => simp [utf8Encode]
  | cons c s' ih =>
    have : utf8Encode (c :: s') = utf8EncodeChar c ++ utf8Encode s' := by
      simp [utf8Encode]
    rw [this, List.append_assoc]
    have hlen : (c :: s').length + fuel = (s'.length + fuel) + 1 := by
      simp [List.length_cons]; omega
    rw [hlen, utf8Decode_encodeChar, ih]
    rfl

theorem utf8Decode_replicate_zero (k fuel : Nat) (h : k ≤ fuel) :
    utf8Decode fuel (List.replicate k 0) = List.replicate k nulChar := by
  induction k generalizing fuel with
  | zero =>
    cases fuel with
    | zero => rfl
    | succ f => rfl
  | succ k' ih =>
    cases fuel with
    | zero => omega
    | succ f =>
      rw [List.replicate_succ, List.replicate_succ]
      show utf8Decode (f + 1) (0 :: List.replicate k' 0) = _
      unfold utf8Decode
      rw [if_pos (by omega)]
      rw [ih f (by omega)]
      rfl

theorem length_le_utf8Encode_length (s : Str) : s.length ≤ (utf8Encode s).length := by
  induction s with
  | nil => simp [utf8Encode]
  | cons c s' ih =>
    have : utf8Encode (c :: s') = utf8EncodeChar c ++ utf8Encode s' := by
      simp [utf8Encode]
    rw [this]
    have hc : 1 ≤ (utf8EncodeChar c).length := by
      simp only [utf8EncodeChar]
      split
      · simp
      split
      · simp
      split <;> simp
    simp only [List.length_append, List.length_cons]
    omega

/-! ## Lemmas: characters and decimal notation -/

theorem char_eq_of_toNat_eq {a b : Char} (h : a.toNat = b.toNat) : a = b := by
  rw [← Char.ofNat_toNat a, h, Char.ofNat_toNat]

theorem char_ne_of_toNat_ne {a b : Char} (h : a.toNat ≠ b.toNat) : a ≠ b :=
  fun e => h (by rw [e])

theorem digitChar_toNat {d : Nat} (h : d < 10) : (digitChar d).toNat = 48 + d :=
  toNat_ofNat_valid (by omega)

theorem isDigitChar_digitChar {d : Nat} (h : d < 10) : isDigitChar (digitChar d) = true := by
  simp [isDigitChar, digitChar_toNat h]; omega

theorem isJsonWs_eq_false {c : Char}
    (h : c.toNat ≠ 32 ∧ c.toNat ≠ 9 ∧ c.toNat ≠ 10 ∧ c.toNat ≠ 13) :
    isJsonWs c = false := by
  have h1 : c ≠ ' ' := char_ne_of_toNat_ne (by simpa using h.1)
  have h2 : c ≠ '\t' := char_ne_of_toNat_ne (by simpa using h.2.1)
  have h3 : c ≠ '\n' := char_ne_of_toNat_ne (by simpa using h.2.2.1)
  have h4 : c ≠ '\r' := char_ne_of_toNat_ne (by simpa using h.2.2.2)
  simp [isJsonWs, h1, h2, h3, h4]

theorem skipWs_cons_of_not_ws {c : Char} {cs : List Char} (h : isJsonWs c = false) :
    skipWs (c :: cs) = c :: cs := by
  simp [skipWs, h]

theorem natDecAux_digits :
    ∀ (fuel n : Nat) (acc : List Char), n < fuel → 1 ≤ n →
      natDecAux fuel n acc = ((Nat.digits 10 n).reverse).map digitChar ++ acc := by
  intro fuel
  induction fuel with
  | zero => intro n acc h _; omega
  | succ f ih =>
    intro n acc hlt hpos
    unfold natDecAux
    by_cases h10 : n < 10
    · rw [if_pos h10]
      rw [Nat.digits_def' (by norm_num : 1 < 10) hpos]
      have : n / 10 = 0 := by omega
      rw [this]
      simp [Nat.mod_eq_of_lt h10]
    · rw [if_neg h10]
      rw [ih (n / 10) (digitChar (n % 10) :: acc) (by omega) (by omega)]
      rw [Nat.digits_def' (by norm_num : 1 < 10) hpos]
      simp

theorem natDec_digits {n : Nat} (h : 1 ≤ n) :
    natDec n = ((Nat.digits 10 n).reverse).map digitChar := by
  unfold natDec
  rw [natDecAux_digits (n + 1) n [] (by omega) h]
  simp

/-- Digit runs parse back to the value they print, with the accumulator
threaded through. -/
theorem parseDigitsAux_append (ds : List Nat) (rest : List Char)
    (hds : ∀ d ∈ ds, d < 10)
    (hrest : ∀ c, rest.head? = some c → isDigitChar c = false) :
    ∀ acc : Nat,
      parseDigitsAux (ds.map digitChar ++ rest) acc =
        (acc * 10 ^ ds.length + Nat.ofDigits 10 ds.reverse, rest) := by
  induction ds with
  | nil =>
    intro acc
    cases rest with
    | nil => simp [parseDigitsAux, Nat.ofDigits]
    | cons c r =>
      have := hrest c rfl
      simp [parseDigitsAux, this, Nat.ofDigits]
  | cons d ds ih =>
    intro acc
    have hd : d < 10 := hds d (by simp)
    have hds' : ∀ x ∈ ds, x < 10 := fun x hx => hds x (by simp [hx])
    simp only [List.map_cons, List.cons_append, parseDigitsAux,
      isDigitChar_digitChar hd, if_pos]
    rw [digitChar_toNat hd]
    have e1 : acc * 10 + (48 + d - 48) = acc * 10 + d := by omega
    rw [e1]
    have e2 : List.map digitChar ds ++ rest = (List.map digitChar ds).append rest := rfl
    rw [← e2, ih hds' (acc * 10 + d)]
    have hlen : (d :: ds).length = ds.length + 1 := rfl
    rw [hlen]
    have e3 : Nat.ofDigits 10 (d :: ds).reverse =
        Nat.ofDigits 10 ds.reverse + 10 ^ ds.length * d := by
      rw [List.reverse_cons, Nat.ofDigits_append]
      simp [Nat.ofDigits_singleton, List.length_reverse]
    rw [e3]
    ring_nf

/-- A rest list whose head cannot continue a number. -/
def NumDelim (rest : List Char) : Prop :=
  ∀ c, rest.head? = some c →
    isDigitChar c = false ∧ c ≠ '.' ∧ c ≠ 'e' ∧ c ≠ 'E'

theorem parseFracPart_delim {rest : List Char} (h : NumDelim rest) :
    parseFracPart rest = some ([], rest) := by
  cases rest with
  | nil => rfl
  | cons c r =>
    have := (h c rfl).2.1
    simp [parseFracPart, this]

theorem parseExpPart_delim {rest : List Char} (h : NumDelim rest) :
    parseExpPart rest = some (none, rest) := by
  cases rest with
  | nil => rfl
  | cons c r =>
    have h1 := (h c rfl).2.2.1
    have h2 := (h c rfl).2.2.2
    simp [parseExpPart, h1, h2]

theorem parseIntPart_natDec (n : Nat) (rest : List Char)
    (hrest : ∀ c, rest.head? = some c → isDigitChar c = false) :
    parseIntPart (natDec n ++ rest) = some (n, rest) := by
  by_cases h0 : n = 0
  · subst h0
    show parseIntPart ('0' :: rest) = some (0, rest)
    simp [parseIntPart]
  · have h1 : 1 ≤ n := by omega
    rw [natDec_digits h1]
    have hne : Nat.digits 10 n ≠ [] := Nat.digits_ne_nil_iff_ne_zero.mpr h0
    obtain ⟨d0, L, hL⟩ : ∃ d0 L, (Nat.digits 10 n).reverse = d0 :: L := by
      cases hrev : (Nat.digits 10 n).reverse with
      | nil => exact absurd (by simpa using congrArg List.reverse hrev) hne
      | cons a l => exact ⟨a, l, rfl⟩
    have hdig : Nat.digits 10 n = L.reverse ++ [d0] := by
      have := congrArg List.reverse hL
      simpa using this
    rw [hL]
    have hd0 : d0 < 10 := by
      have hmem : d0 ∈ Nat.digits 10 n := by rw [hdig]; simp
      exact Nat.digits_lt_base (by norm_num) hmem
    have hd0pos : d0 ≠ 0 := by
      have h2 : (Nat.digits 10 n).getLast? = some d0 := by
        rw [hdig]
        simp
      have h3 : (Nat.digits 10 n).getLast hne ≠ 0 := Nat.getLast_digit_ne_zero 10 h0
      rw [List.getLast?_eq_getLast _ hne] at h2
      have := Option.some.inj h2
      omega
    have hLlt : ∀ x ∈ L, x < 10 := by
      intro x hx
      have hmem : x ∈ Nat.digits 10 n := by rw [hdig]; simp [hx]
      exact Nat.digits_lt_base (by norm_num) hmem
    simp only [List.map_cons, List.cons_append, parseIntPart]
    have hne0 : digitChar d0 ≠ '0' := by
      apply char_ne_of_toNat_ne
      rw [digitChar_toNat hd0]
      show 48 + d0 ≠ 48
      omega
    rw [if_neg hne0, if_pos (isDigitChar_digitChar hd0)]
    rw [digitChar_toNat hd0]
    have e1 : 48 + d0 - 48 = d0 := by omega
    rw [e1, parseDigitsAux_append L rest hLlt hrest d0]
    have hval : d0 * 10 ^ L.length + Nat.ofDigits 10 L.reverse = n := by
      have h4 := Nat.ofDigits_digits 10 n
      rw [hdig, Nat.ofDigits_append] at h4
      simp only [Nat.ofDigits_singleton, List.length_reverse] at h4
      rw [Nat.mul_comm d0 (10 ^ L.length)]
      omega
    rw [hval]

theorem parseNumber_natDec (n : Nat) (rest : List Char) (h : NumDelim rest) :
    parseNumber (natDec n ++ rest) = some (.num (n : Int) [] none, rest) := by
  have hdig : ∀ c, rest.head? = some c → isDigitChar c = false :=
    fun c hc => (h c hc).1
  have hstep : parseUnsignedNumber false (natDec n ++ rest) =
      some (.num (n : Int) [] none, rest) := by
    unfold parseUnsignedNumber
    rw [parseIntPart_natDec n rest hdig]
    simp [parseFracPart_delim h, parseExpPart_delim h]
  have hne : natDec n ≠ [] := by
    by_cases h0 : n = 0
    · subst h0; simp [natDec, natDecAux]
    · rw [natDec_digits (by omega)]
      have : Nat.digits 10 n ≠ [] := Nat.digits_ne_nil_iff_ne_zero.mpr h0
      simp [this]
  obtain ⟨c0, cs0, hc⟩ : ∃ c0 cs0, natDec n = c0 :: cs0 := by
    cases hn : natDec n with
    | nil => exact absurd hn hne
    | cons a l => exact ⟨a, l, rfl⟩
  have hc0 : isDigitChar c0 = true := by
    by_cases h0 : n = 0
    · subst h0
      have h00 : natDec 0 = ['0'] := by decide
      rw [h00] at hc
      cases hc
      decide
    · rw [natDec_digits (by omega)] at hc
      cases hL : (Nat.digits 10 n).reverse with
      | nil =>
        rw [hL] at hc; simp at hc
      | cons d L =>
        rw [hL] at hc
        simp only [List.map_cons] at hc
        have hd : d < 10 := by
          have : d ∈ Nat.digits 10 n := by
            have : d ∈ (Nat.digits 10 n).reverse := by rw [hL]; simp
            simpa using this
          exact Nat.digits_lt_base (by norm_num) this
        have : c0 = digitChar d := by cases hc; rfl
        rw [this]
        exact isDigitChar_digitChar hd
  have hcminus : c0 ≠ '-' := by
    apply char_ne_of_toNat_ne
    simp only [isDigitChar, decide_eq_true_eq] at hc0
    have : ('-').toNat = 45 := by decide
    omega
  rw [hc]
  show parseNumber (c0 :: (cs0 ++ rest)) = _
  rw [parseNumber, if_neg hcminus]
  rw [show c0 :: (cs0 ++ rest) = (c0 :: cs0) ++ rest from rfl, ← hc]
  exact hstep

theorem parseNumber_intDec (i : Int) (rest : List Char) (h : NumDelim rest) :
    parseNumber (intDec i ++ rest) = some (.num i [] none, rest) := by
  cases i with
  | ofNat n => exact parseNumber_natDec n rest h
  | negSucc n =>
    show parseNumber ('-' :: (natDec (n + 1) ++ rest)) = _
    rw [parseNumber, if_pos rfl]
    have hdig : ∀ c, rest.head? = some c → isDigitChar c = false :=
      fun c hc => (h c hc).1
    unfold parseUnsignedNumber
    rw [parseIntPart_natDec (n + 1) rest hdig]
    simp [parseFracPart_delim h, parseExpPart_delim h, Int.negSucc_eq]

/-! ## Lemmas: string escape round trip -/

theorem hexVal?_digitChar {d : Nat} (h : d < 10) : hexVal? (digitChar d) = some d := by
  unfold hexVal?
  rw [digitChar_toNat h, if_pos (by omega : 48 ≤ 48 + d ∧ 48 + d ≤ 57)]
  congr 1
  omega

theorem hexVal?_lower {m : Nat} (h10 : 10 ≤ m) (h16 : m < 16) :
    hexVal? (Char.ofNat (87 + m)) = some m := by
  unfold hexVal?
  rw [toNat_ofNat_valid (by omega)]
  rw [if_neg (by omega), if_pos (by omega)]
  congr 1
  omega

/-- The one-step unfolding of `parseStringBody` on a cons. -/
theorem psb_cons (f : Nat) (c : Char) (cs : List Char) :
    parseStringBody (f + 1) (c :: cs) =
      (if c = '"' then some ([], cs)
       else if c = '\\' then
         match cs with
         | [] => none
         | e :: r =>
           (parseEscapeSeq e r).bind fun p =>
             (parseStringBody f p.2).map fun q => (p.1 :: q.1, q.2)
       else if c.toNat < 32 then none
       else (parseStringBody f cs).map fun p => (c :: p.1, p.2)) := rfl

theorem parseEscapeSeq_u {t : Nat} (h : t < 32) (X : List Char) :
    parseEscapeSeq 'u' ('0' :: '0' :: digitChar (t / 16) ::
      (if t % 16 < 10 then digitChar (t % 16) else Char.ofNat (87 + t % 16)) :: X) =
      some (Char.ofNat t, X) := by
  have hd1 : hexVal? (digitChar (t / 16)) = some (t / 16) :=
    hexVal?_digitChar (by omega)
  have hd2 : hexVal? (if t % 16 < 10 then digitChar (t % 16)
      else Char.ofNat (87 + t % 16)) = some (t % 16) := by
    by_cases hm : t % 16 < 10
    · rw [if_pos hm]; exact hexVal?_digitChar hm
    · rw [if_neg hm]; exact hexVal?_lower (by omega) (by omega)
  unfold parseEscapeSeq
  rw [if_neg (by decide), if_neg (by decide), if_neg (by decide), if_neg (by decide),
    if_neg (by decide), if_neg (by decide), if_neg (by decide), if_neg (by decide),
    if_pos rfl]
  have h0 : hexVal? '0' = some 0 := by decide
  simp only [parseHex4, h0, hd1, hd2, Option.some_bind, Option.bind_eq_bind]
  have hn : ((0 * 16 + 0) * 16 + t / 16) * 16 + t % 16 = t := by omega
  rw [hn, if_neg (by omega : ¬(0xD800 ≤ t ∧ t < 0xDC00))]
  have hcs : charForScalar t = Char.ofNat t := by
    unfold charForScalar
    rw [if_neg (by omega)]
  rw [hcs]

theorem parseStringBody_ser (s : Str) :
    ∀ (rest : List Char) (fuel : Nat), s.length < fuel →
      parseStringBody fuel (s.flatMap escChar ++ '"' :: rest) = some (s, rest) := by
  induction s with
  | nil =>
    intro rest fuel hf
    cases fuel with
    | zero => omega
    | succ f =>
      show parseStringBody (f + 1) ('"' :: rest) = some ([], rest)
      rw [psb_cons, if_pos rfl]
  | cons c s' ih =>
    intro rest fuel hf
    cases fuel with
    | zero => omega
    | succ f =>
      have hih := ih rest f (by simpa using hf)
      have hesc : ∀ (e : Char) (extra : List Char),
          escChar c = '\\' :: e :: extra →
          (∀ X, parseEscapeSeq e (extra ++ X) = some (c, X)) →
          parseStringBody (f + 1) ((c :: s').flatMap escChar ++ '"' :: rest) =
            some (c :: s', rest) := by
        intro e extra he hpe
        have hflat : (c :: s').flatMap escChar ++ '"' :: rest =
            '\\' :: e :: (extra ++ (s'.flatMap escChar ++ '"' :: rest)) := by
          rw [List.flatMap_cons, he]
          simp
        rw [hflat, psb_cons, if_neg (by decide : ¬('\\' : Char) = '"'), if_pos rfl]
        show (parseEscapeSeq e (extra ++ (s'.flatMap escChar ++ '"' :: rest))).bind
            (fun p => (parseStringBody f p.2).map fun q => (p.1 :: q.1, q.2)) = _
        rw [hpe]
        simp [hih]
      by_cases h1 : c = '"'
      · subst h1
        refine hesc '"' [] (by simp [escChar]) fun X => rfl
      · by_cases h2 : c = '\\'
        · subst h2
          refine hesc '\\' [] (by simp [escChar]) fun X => rfl
        · by_cases h3 : c.toNat = 8
          · have hc : Char.ofNat 8 = c :=
              char_eq_of_toNat_eq (by rw [toNat_ofNat_valid (by omega)]; omega)
            refine hesc 'b' [] (by simp [escChar, h1, h2, h3]) fun X => ?_
            show parseEscapeSeq 'b' X = some (c, X)
            rw [show parseEscapeSeq 'b' X = some (Char.ofNat 8, X) from rfl, hc]
          · by_cases h4 : c.toNat = 9
            · have hc : Char.ofNat 9 = c :=
                char_eq_of_toNat_eq (by rw [toNat_ofNat_valid (by omega)]; omega)
              refine hesc 't' [] (by simp [escChar, h1, h2, h3, h4]) fun X => ?_
              show parseEscapeSeq 't' X = some (c, X)
              rw [show parseEscapeSeq 't' X = some (Char.ofNat 9, X) from rfl, hc]
            · by_cases h5 : c.toNat = 10
              · have hc : Char.ofNat 10 = c :=
                  char_eq_of_toNat_eq (by rw [toNat_ofNat_valid (by omega)]; omega)
                refine hesc 'n' [] (by simp [escChar, h1, h2, h3, h4, h5]) fun X => ?_
                show parseEscapeSeq 'n' X = some (c, X)
                rw [show parseEscapeSeq 'n' X = some (Char.ofNat 10, X) from rfl, hc]
              · by_cases h6 : c.toNat = 12
                · have hc : Char.ofNat 12 = c :=
                    char_eq_of_toNat_eq (by rw [toNat_ofNat_valid (by omega)]; omega)
                  refine hesc 'f' [] (by simp [escChar, h1, h2, h3, h4, h5, h6]) fun X => ?_
                  show parseEscapeSeq 'f' X = some (c, X)
                  rw [show parseEscapeSeq 'f' X = some (Char.ofNat 12, X) from rfl, hc]
                · by_cases h7 : c.toNat = 13
                  · have hc : Char.ofNat 13 = c :=
                      char_eq_of_toNat_eq (by rw [toNat_ofNat_valid (by omega)]; omega)
                    refine hesc 'r' []
                      (by simp [escChar, h1, h2, h3, h4, h5, h6, h7]) fun X => ?_
                    show parseEscapeSeq 'r' X = some (c, X)
                    rw [show parseEscapeSeq 'r' X = some (Char.ofNat 13, X) from rfl, hc]
                  · by_cases h8 : c.toNat < 32
                    · have hc : Char.ofNat c.toNat = c := Char.ofNat_toNat c
                      refine hesc 'u'
                        ['0', '0', digitChar (c.toNat / 16),
                          if c.toNat % 16 < 10 then digitChar (c.toNat % 16)
                          else Char.ofNat (87 + c.toNat % 16)]
                        (by simp [escChar, h1, h2, h3, h4, h5, h6, h7, h8]) fun X => ?_
                      show parseEscapeSeq 'u' ('0' :: '0' :: digitChar (c.toNat / 16) ::
                        (if c.toNat % 16 < 10 then digitChar (c.toNat % 16)
                          else Char.ofNat (87 + c.toNat % 16)) :: X) = some (c, X)
                      rw [parseEscapeSeq_u h8 X, hc]
                    · have hflat : (c :: s').flatMap escChar ++ '"' :: rest =
                          c :: (s'.flatMap escChar ++ '"' :: rest) := by
                        rw [List.flatMap_cons]
                        have : escChar c = [c] := by
                          simp [escChar, h1, h2, h3, h4, h5, h6, h7, h8]
                        rw [this]
                        simp
                      rw [hflat, psb_cons, if_neg h1, if_neg h2, if_neg h8, hih]
                      rfl

/-! ## Lemmas: the JSON parser recovers serialized values -/

theorem headTail_cons {c : Char} (cs : List Char) (h : isJsonWs c = false) :
    headTail (c :: cs) = some (c, cs) := by
  unfold headTail
  rw [skipWs_cons_of_not_ws h]

theorem parseJ_value_step (f : Nat) (cs : List Char) :
    parseJ (f + 1) .value cs =
      (headTail cs).bind fun p =>
        if p.1 = 'n' then (expectLit "ull".data p.2).map fun r' => (.null, r')
        else if p.1 = 't' then (expectLit "rue".data p.2).map fun r' => (.bool true, r')
        else if p.1 = 'f' then (expectLit "alse".data p.2).map fun r' => (.bool false, r')
        else if p.1 = '"' then (parseStringBody (f + 1) p.2).map fun q => (.str q.1, q.2)
        else if p.1 = '[' then parseJ f .elems p.2
        else if p.1 = '{' then parseJ f .fields p.2
        else parseNumber (p.1 :: p.2) := rfl

theorem parseJ_elems_step (f : Nat) (cs : List Char) :
    parseJ (f + 1) .elems cs =
      ((headTail cs).bind fun p =>
        if p.1 = ']' then some (.arr [], p.2)
        else do
          let (v, r1) ← parseJ f .value (p.1 :: p.2)
          parseJ f (.elemsTail [v]) r1) := rfl

theorem parseJ_elemsTail_step (f : Nat) (acc : List Json) (cs : List Char) :
    parseJ (f + 1) (.elemsTail acc) cs =
      ((headTail cs).bind fun p =>
        if p.1 = ',' then do
          let (v, r1) ← parseJ f .value p.2
          parseJ f (.elemsTail (acc ++ [v])) r1
        else if p.1 = ']' then some (.arr acc, p.2)
        else none) := rfl

theorem parseJ_fields_step (f : Nat) (cs : List Char) :
    parseJ (f + 1) .fields cs =
      ((headTail cs).bind fun p =>
        if p.1 = '}' then some (.obj [], p.2)
        else if p.1 = '"' then do
          let (k, r1) ← parseStringBody (f + 1) p.2
          let (v, r3) ← afterKey (parseJ f .value) r1
          parseJ f (.fieldsTail [(k, v)]) r3
        else none) := rfl

theorem parseJ_fieldsTail_step (f : Nat) (acc : List (Str × Json)) (cs : List Char) :
    parseJ (f + 1) (.fieldsTail acc) cs =
      ((headTail cs).bind fun p =>
        if p.1 = ',' then
          (headTail p.2).bind fun p' =>
            if p'.1 = '"' then do
              let (k, r1) ← parseStringBody (f + 1) p'.2
              let (v, r3) ← afterKey (parseJ f .value) r1
              parseJ f (.fieldsTail (acc ++ [(k, v)])) r3
            else none
        else if p.1 = '}' then some (.obj acc, p.2)
        else none) := rfl

/-- Scalar JSON values: the shapes of array elements the codec emits. -/
def SElem (j : Json) : Prop :=
  (∃ i, j = .num i [] none) ∨ (∃ s, j = .str s)

/-- Fuel needed by `parseJ` to read one serialized scalar. -/
def jFuelV : Json → Nat
  | .str s => s.length + 1
  | _ => 1

theorem jsonSer_num (i : Int) : jsonSer (.num i [] none) = intDec i := by
  simp [jsonSer]

theorem jsonSer_str (s : Str) : jsonSer (.str s) = serStr s := rfl

/-- Heads of serialized numbers and strings are plain (not whitespace, not a
keyword/array/object opener), so the value parser dispatches correctly. -/
theorem intDec_head (i : Int) :
    ∃ c0 cs0, intDec i = c0 :: cs0 ∧ (48 ≤ c0.toNat ∧ c0.toNat ≤ 57 ∨ c0.toNat = 45) := by
  have hnat : ∀ n : Nat, ∃ c0 cs0, natDec n = c0 :: cs0 ∧ 48 ≤ c0.toNat ∧ c0.toNat ≤ 57 := by
    intro n
    by_cases h0 : n = 0
    · subst h0
      exact ⟨'0', [], by decide, by decide⟩
    · rw [natDec_digits (by omega)]
      have hne : Nat.digits 10 n ≠ [] := Nat.digits_ne_nil_iff_ne_zero.mpr h0
      cases hL : (Nat.digits 10 n).reverse with
      | nil => exact absurd (by simpa using congrArg List.reverse hL) hne
      | cons d L =>
        have hd : d < 10 := by
          have hmem : d ∈ Nat.digits 10 n := by
            have : d ∈ (Nat.digits 10 n).reverse := by rw [hL]; simp
            simpa using this
          exact Nat.digits_lt_base (by norm_num) hmem
        exact ⟨digitChar d, L.map digitChar, by simp, by rw [digitChar_toNat hd]; omega⟩
  cases i with
  | ofNat n =>
    obtain ⟨c0, cs0, h1, h2⟩ := hnat n
    exact ⟨c0, cs0, h1, Or.inl h2⟩
  | negSucc n =>
    exact ⟨'-', natDec (n + 1), rfl, Or.inr (by decide)⟩

theorem parseJ_value_num (i : Int) (rest : List Char) (F : Nat) (hF : 1 ≤ F)
    (hrest : NumDelim rest) :
    parseJ F .value (intDec i ++ rest) = some (.num i [] none, rest) := by
  obtain ⟨f, rfl⟩ : ∃ f, F = f + 1 := ⟨F - 1, by omega⟩
  obtain ⟨c0, cs0, hc, hc0⟩ := intDec_head i
  have hchars : ('n').toNat = 110 ∧ ('t').toNat = 116 ∧ ('f').toNat = 102 ∧
      ('"').toNat = 34 ∧ ('[').toNat = 91 ∧ ('{').toNat = 123 := by decide
  obtain ⟨hn, ht, hf2, hq, hb, hcb⟩ := hchars
  have hrw : intDec i ++ rest = c0 :: (cs0 ++ rest) := by rw [hc]; rfl
  rw [parseJ_value_step, hrw,
    headTail_cons _ (isJsonWs_eq_false (by omega)), Option.some_bind]
  simp only
  rw [if_neg (char_ne_of_toNat_ne (by omega)),
    if_neg (char_ne_of_toNat_ne (by omega)),
    if_neg (char_ne_of_toNat_ne (by omega)),
    if_neg (char_ne_of_toNat_ne (by omega)),
    if_neg (char_ne_of_toNat_ne (by omega)),
    if_neg (char_ne_of_toNat_ne (by omega))]
  rw [show c0 :: (cs0 ++ rest) = intDec i ++ rest from hrw.symm]
  exact parseNumber_intDec i rest hrest

theorem parseJ_value_str (s : Str) (rest : List Char) (F : Nat) (hF : s.length + 1 ≤ F) :
    parseJ F .value (serStr s ++ rest) = some (.str s, rest) := by
  obtain ⟨f, rfl⟩ : ∃ f, F = f + 1 := ⟨F - 1, by omega⟩
  have hrw : serStr s ++ rest = '"' :: (s.flatMap escChar ++ '"' :: rest) := by
    simp [serStr]
  rw [hrw, parseJ_value_step, headTail_cons _ (by decide), Option.some_bind]
  have hbody := parseStringBody_ser s rest (f + 1) (by omega)
  simp [hbody]

theorem parseJ_value_null (rest : List Char) (F : Nat) (hF : 1 ≤ F) :
    parseJ F .value (jsonSer .null ++ rest) = some (.null, rest) := by
  obtain ⟨f, rfl⟩ : ∃ f, F = f + 1 := ⟨F - 1, by omega⟩
  have hrw : jsonSer .null ++ rest = 'n' :: ("ull".data ++ rest) := rfl
  rw [hrw, parseJ_value_step, headTail_cons _ (by decide), Option.some_bind]
  have hexp : expectLit "ull".data ('u' :: 'l' :: 'l' :: rest) = some rest := rfl
  simp [hexp]

theorem parseJ_value_bool (b : Bool) (rest : List Char) (F : Nat) (hF : 1 ≤ F) :
    parseJ F .value (jsonSer (.bool b) ++ rest) = some (.bool b, rest) := by
  obtain ⟨f, rfl⟩ : ∃ f, F = f + 1 := ⟨F - 1, by omega⟩
  cases b with
  | true =>
    have hrw : jsonSer (.bool true) ++ rest = 't' :: ("rue".data ++ rest) := rfl
    rw [hrw, parseJ_value_step, headTail_cons _ (by decide), Option.some_bind]
    have hexp : expectLit "rue".data ('r' :: 'u' :: 'e' :: rest) = some rest := rfl
    simp [hexp]
  | false =>
    have hrw : jsonSer (.bool false) ++ rest = 'f' :: ("alse".data ++ rest) := rfl
    rw [hrw, parseJ_value_step, headTail_cons _ (by decide), Option.some_bind]
    have hexp : expectLit "alse".data ('a' :: 'l' :: 's' :: 'e' :: rest) = some rest := rfl
    simp [hexp]

theorem parseJ_value_selem {j : Json} (hj : SElem j) (rest : List Char) (F : Nat)
    (hF : jFuelV j ≤ F) (hrest : NumDelim rest) :
    parseJ F .value (jsonSer j ++ rest) = some (j, rest) := by
  rcases hj with ⟨i, rfl⟩ | ⟨s, rfl⟩
  · rw [jsonSer_num]
    exact parseJ_value_num i rest F (by simpa [jFuelV] using hF) hrest
  · rw [jsonSer_str]
    exact parseJ_value_str s rest F (by simpa [jFuelV] using hF)

/-- The serialized head of a scalar is a digit, a minus sign or a quote. -/
theorem selem_head {j : Json} (hj : SElem j) :
    ∃ c0 r0, jsonSer j = c0 :: r0 ∧
      (48 ≤ c0.toNat ∧ c0.toNat ≤ 57 ∨ c0.toNat = 45 ∨ c0.toNat = 34) := by
  rcases hj with ⟨i, rfl⟩ | ⟨s, rfl⟩
  · obtain ⟨c0, cs0, hc, hc0⟩ := intDec_head i
    refine ⟨c0, cs0, by rw [jsonSer_num, hc], ?_⟩
    rcases hc0 with h | h
    · exact Or.inl h
    · exact Or.inr (Or.inl h)
  · exact ⟨'"', s.flatMap escChar ++ ['"'], rfl, Or.inr (Or.inr (by decide))⟩

/-- `,elem,elem,…` — the serialized continuation of a nonempty array. -/
def tailSer : List Json → List Char
  | [] => []
  | x :: xs => ',' :: jsonSer x ++ tailSer xs

theorem jsonSerList_eq : ∀ (x : Json) (xs : List Json),
    jsonSerList (x :: xs) = jsonSer x ++ tailSer xs := by
  intro x xs
  induction xs generalizing x with
  | nil => simp [jsonSerList, tailSer]
  | cons y ys ih =>
    show jsonSerList (x :: y :: ys) = _
    rw [jsonSerList, ih y]
    simp [tailSer]

/-- Fuel needed by `parseJ` for an array continuation. -/
def needTail (xs : List Json) : Nat := (xs.map fun x => jFuelV x + 1).sum + 1

theorem tailSer_head_delim (xs : List Json) (rest : List Char) :
    NumDelim (tailSer xs ++ ']' :: rest) := by
  cases xs with
  | nil =>
    intro c hc
    cases hc
    decide
  | cons x xs =>
    intro c hc
    simp [tailSer] at hc
    cases hc
    decide

theorem parseJ_elemsTail_ser (xs : List Json) :
    ∀ (acc : List Json) (rest : List Char) (F : Nat),
      (∀ j ∈ xs, SElem j) → needTail xs ≤ F →
      parseJ F (.elemsTail acc) (tailSer xs ++ ']' :: rest) =
        some (.arr (acc ++ xs), rest) := by
  induction xs with
  | nil =>
    intro acc rest F _ hF
    obtain ⟨f, rfl⟩ : ∃ f, F = f + 1 := ⟨F - 1, by simp [needTail] at hF; omega⟩
    show parseJ (f + 1) (.elemsTail acc) (']' :: rest) = _
    rw [parseJ_elemsTail_step, headTail_cons _ (by decide), Option.some_bind]
    simp
  | cons x xs ih =>
    intro acc rest F hS hF
    have hunf : needTail (x :: xs) = jFuelV x + 1 + needTail xs := by
      simp [needTail]
      omega
    obtain ⟨f, rfl⟩ : ∃ f, F = f + 1 := ⟨F - 1, by omega⟩
    have hfx : jFuelV x ≤ f := by omega
    have hfxs : needTail xs ≤ f := by omega
    have hrw : tailSer (x :: xs) ++ ']' :: rest =
        ',' :: (jsonSer x ++ (tailSer xs ++ ']' :: rest)) := by
      simp [tailSer]
    rw [hrw, parseJ_elemsTail_step, headTail_cons _ (by decide), Option.some_bind]
    simp only
    rw [if_pos trivial]
    rw [parseJ_value_selem (hS x (by simp)) _ f hfx (tailSer_head_delim xs rest)]
    simp only [Option.bind_eq_bind, Option.some_bind]
    rw [ih (acc ++ [x]) rest f (fun j hj => hS j (by simp [hj])) hfxs]
    simp

theorem parseJ_elems_ser (xs : List Json) (rest : List Char) (F : Nat)
    (hS : ∀ j ∈ xs, SElem j) (hF : needTail xs ≤ F) :
    parseJ F .elems (jsonSerList xs ++ ']' :: rest) = some (.arr xs, rest) := by
  cases xs with
  | nil =>
    obtain ⟨f, rfl⟩ : ∃ f, F = f + 1 := ⟨F - 1, by simp [needTail] at hF; omega⟩
    show parseJ (f + 1) .elems (']' :: rest) = _
    rw [parseJ_elems_step, headTail_cons _ (by decide), Option.some_bind]
    simp
  | cons x xs =>
    have hunf : needTail (x :: xs) = jFuelV x + 1 + needTail xs := by
      simp [needTail]
      omega
    obtain ⟨f, rfl⟩ : ∃ f, F = f + 1 := ⟨F - 1, by omega⟩
    have hfx : jFuelV x ≤ f := by omega
    have hfxs : needTail xs ≤ f := by omega
    obtain ⟨c0, r0, hser, hc0⟩ := selem_head (hS x (by simp))
    have hrw : jsonSerList (x :: xs) ++ ']' :: rest =
        c0 :: (r0 ++ (tailSer xs ++ ']' :: rest)) := by
      rw [jsonSerList_eq, hser]
      simp
    rw [hrw, parseJ_elems_step, headTail_cons _ (isJsonWs_eq_false (by omega)),
      Option.some_bind]
    simp only
    rw [if_neg (char_ne_of_toNat_ne (by rw [show (']').toNat = 93 from by decide]; omega))]
    have hback : c0 :: (r0 ++ (tailSer xs ++ ']' :: rest)) =
        jsonSer x ++ (tailSer xs ++ ']' :: rest) := by
      rw [hser]
      simp
    rw [hback]
    rw [parseJ_value_selem (hS x (by simp)) _ f hfx (tailSer_head_delim xs rest)]
    simp only [Option.bind_eq_bind, Option.some_bind]
    rw [parseJ_elemsTail_ser xs [x] rest f (fun j hj => hS j (by simp [hj])) hfxs]
    simp

/-- The field-value shapes of node objects: scalars, `null`, booleans, and
flat arrays of scalars. -/
def SVal (j : Json) : Prop :=
  SElem j ∨ j = .null ∨ (∃ b, j = .bool b) ∨
    (∃ xs, j = .arr xs ∧ ∀ x ∈ xs, SElem x)

/-- Fuel needed by `parseJ` for one serialized field value. -/
def jFuelField : Json → Nat
  | .str s => s.length + 1
  | .arr xs => needTail xs + 1
  | _ => 1

theorem parseJ_value_sval {j : Json} (hj : SVal j) (rest : List Char) (F : Nat)
    (hF : jFuelField j ≤ F) (hrest : NumDelim rest) :
    parseJ F .value (jsonSer j ++ rest) = some (j, rest) := by
  rcases hj with hj | rfl | ⟨b, rfl⟩ | ⟨xs, rfl, hxs⟩
  · refine parseJ_value_selem hj rest F ?_ hrest
    rcases hj with ⟨i, rfl⟩ | ⟨s, rfl⟩
    · simpa [jFuelV] using hF
    · simpa [jFuelV, jFuelField] using hF
  · exact parseJ_value_null rest F (by simpa [jFuelField] using hF)
  · exact parseJ_value_bool b rest F (by simpa [jFuelField] using hF)
  · have hF2 : needTail xs + 1 ≤ F := by simpa [jFuelField] using hF
    obtain ⟨f, rfl⟩ : ∃ f, F = f + 1 := ⟨F - 1, by omega⟩
    have hrw : jsonSer (.arr xs) ++ rest = '[' :: (jsonSerList xs ++ ']' :: rest) := by
      show ('[' :: jsonSerList xs ++ [']']) ++ rest = _
      simp
    rw [hrw, parseJ_value_step, headTail_cons _ (by decide), Option.some_bind]
    have harr := parseJ_elems_ser xs rest f hxs (by omega)
    simp [harr]

/-- One serialized `"key":value` field. -/
def fieldSer (kv : Str × Json) : List Char := serStr kv.1 ++ ':' :: jsonSer kv.2

/-- `,field,field,…` — the serialized continuation of a nonempty object. -/
def fieldsTailSer : List (Str × Json) → List Char
  | [] => []
  | kv :: fs => ',' :: fieldSer kv ++ fieldsTailSer fs

theorem jsonSerFields_eq : ∀ (kv : Str × Json) (fs : List (Str × Json)),
    jsonSerFields (kv :: fs) = fieldSer kv ++ fieldsTailSer fs := by
  intro kv fs
  induction fs generalizing kv with
  | nil => simp [jsonSerFields, fieldSer, fieldsTailSer]
  | cons kv' fs' ih =>
    show jsonSerFields (kv :: kv' :: fs') = _
    rw [jsonSerFields, ih kv']
    simp [fieldSer, fieldsTailSer]

/-- Fuel needed by `parseJ` for an object continuation. -/
def needFT : List (Str × Json) → Nat
  | [] => 1
  | kv :: fs => kv.1.length + jFuelField kv.2 + needFT fs + 1

theorem fieldsTailSer_head_delim (fs : List (Str × Json)) (rest : List Char) :
    NumDelim (fieldsTailSer fs ++ '}' :: rest) := by
  cases fs with
  | nil =>
    intro c hc
    cases hc
    decide
  | cons kv fs =>
    intro c hc
    simp [fieldsTailSer] at hc
    cases hc
    decide

/-- After the key string: `: value` followed by the object continuation. -/
theorem afterKey_ser {v : Json} (hv : SVal v) (fs : List (Str × Json))
    (rest : List Char) (f : Nat) (hvf : jFuelField v ≤ f) :
    afterKey (parseJ f .value) (':' :: (jsonSer v ++ (fieldsTailSer fs ++ '}' :: rest))) =
      some (v, fieldsTailSer fs ++ '}' :: rest) := by
  unfold afterKey
  rw [headTail_cons _ (by decide), Option.some_bind]
  have hval := parseJ_value_sval hv (fieldsTailSer fs ++ '}' :: rest) f hvf
    (fieldsTailSer_head_delim fs rest)
  simp [hval]

theorem parseJ_fieldsTail_ser (fs : List (Str × Json)) :
    ∀ (acc : List (Str × Json)) (rest : List Char) (F : Nat),
      (∀ kv ∈ fs, SVal kv.2) → needFT fs ≤ F →
      parseJ F (.fieldsTail acc) (fieldsTailSer fs ++ '}' :: rest) =
        some (.obj (acc ++ fs), rest) := by
  induction fs with
  | nil =>
    intro acc rest F _ hF
    obtain ⟨f, rfl⟩ : ∃ f, F = f + 1 := ⟨F - 1, by simp [needFT] at hF; omega⟩
    show parseJ (f + 1) (.fieldsTail acc) ('}' :: rest) = _
    rw [parseJ_fieldsTail_step, headTail_cons _ (by decide), Option.some_bind]
    simp
  | cons kv fs ih =>
    intro acc rest F hS hF
    have hunf : needFT (kv :: fs) = kv.1.length + jFuelField kv.2 + needFT fs + 1 := rfl
    obtain ⟨f, rfl⟩ : ∃ f, F = f + 1 := ⟨F - 1, by omega⟩
    have hk : kv.1.length ≤ f := by omega
    have hv : jFuelField kv.2 ≤ f := by omega
    have hfs : needFT fs ≤ f := by omega
    have hrw : fieldsTailSer (kv :: fs) ++ '}' :: rest =
        ',' :: ('"' :: (kv.1.flatMap escChar ++ '"' ::
          (':' :: (jsonSer kv.2 ++ (fieldsTailSer fs ++ '}' :: rest))))) := by
      simp [fieldsTailSer, fieldSer, serStr]
    rw [hrw, parseJ_fieldsTail_step, headTail_cons _ (by decide), Option.some_bind]
    simp only
    rw [if_pos trivial]
    rw [headTail_cons _ (by decide), Option.some_bind]
    simp only
    rw [if_pos trivial]
    rw [parseStringBody_ser kv.1 _ (f + 1) (by omega)]
    simp only [Option.bind_eq_bind, Option.some_bind]
    rw [afterKey_ser (hS kv (by simp)) fs rest f hv]
    simp only [Option.bind_eq_bind, Option.some_bind, Prod.mk.eta]
    rw [ih (acc ++ [kv]) rest f (fun x hx => hS x (by simp [hx])) hfs]
    simp

theorem parseJ_fields_ser (fs : List (Str × Json)) (rest : List Char) (F : Nat)
    (hS : ∀ kv ∈ fs, SVal kv.2) (hF : needFT fs ≤ F) :
    parseJ F .fields (jsonSerFields fs ++ '}' :: rest) = some (.obj fs, rest) := by
  cases fs with
  | nil =>
    obtain ⟨f, rfl⟩ : ∃ f, F = f + 1 := ⟨F - 1, by simp [needFT] at hF; omega⟩
    show parseJ (f + 1) .fields ('}' :: rest) = _
    rw [parseJ_fields_step, headTail_cons _ (by decide), Option.some_bind]
    simp
  | cons kv fs =>
    have hunf : needFT (kv :: fs) = kv.1.length + jFuelField kv.2 + needFT fs + 1 := rfl
    obtain ⟨f, rfl⟩ : ∃ f, F = f + 1 := ⟨F - 1, by omega⟩
    have hk : kv.1.length ≤ f := by omega
    have hv : jFuelField kv.2 ≤ f := by omega
    have hfs : needFT fs ≤ f := by omega
    have hrw : jsonSerFields (kv :: fs) ++ '}' :: rest =
        '"' :: (kv.1.flatMap escChar ++ '"' ::
          (':' :: (jsonSer kv.2 ++ (fieldsTailSer fs ++ '}' :: rest)))) := by
      rw [jsonSerFields_eq]
      simp [fieldSer, serStr]
    rw [hrw, parseJ_fields_step, headTail_cons _ (by decide), Option.some_bind]
    simp only
    rw [if_neg (by decide), if_pos trivial]
    rw [parseStringBody_ser kv.1 _ (f + 1) (by omega)]
    simp only [Option.bind_eq_bind, Option.some_bind]
    rw [afterKey_ser (hS kv (by simp)) fs rest f hv]
    simp only [Option.bind_eq_bind, Option.some_bind, Prod.mk.eta]
    rw [parseJ_fieldsTail_ser fs [kv] rest f (fun x hx => hS x (by simp [hx])) hfs]
    simp

theorem parseJ_value_obj (fs : List (Str × Json)) (rest : List Char) (F : Nat)
    (hS : ∀ kv ∈ fs, SVal kv.2) (hF : needFT fs + 1 ≤ F) :
    parseJ F .value (jsonSer (.obj fs) ++ rest) = some (.obj fs, rest) := by
  obtain ⟨f, rfl⟩ : ∃ f, F = f + 1 := ⟨F - 1, by omega⟩
  have hrw : jsonSer (.obj fs) ++ rest = '{' :: (jsonSerFields fs ++ '}' :: rest) := by
    show ('{' :: jsonSerFields fs ++ ['}']) ++ rest = _
    simp
  rw [hrw, parseJ_value_step, headTail_cons _ (by decide), Option.some_bind]
  have hobj := parseJ_fields_ser fs rest f hS (by omega)
  simp [hobj]

/-! ## Lemmas: fuel bounds and the node round trip -/

theorem one_le_escChar_length (c : Char) : 1 ≤ (escChar c).length := by
  unfold escChar
  repeat' split
  all_goals simp

theorem length_le_flatMap_escChar (s : Str) : s.length ≤ (s.flatMap escChar).length := by
  induction s with
  | nil => simp
  | cons c s' ih =>
    have h1 := one_le_escChar_length c
    simp only [List.flatMap_cons, List.length_append, List.length_cons]
    omega

theorem jFuelV_le_ser {j : Json} (hj : SElem j) : jFuelV j ≤ (jsonSer j).length := by
  rcases hj with ⟨i, rfl⟩ | ⟨s, rfl⟩
  · obtain ⟨c0, cs0, hc, _⟩ := intDec_head i
    rw [jsonSer_num, hc]
    simp [jFuelV]
  · rw [jsonSer_str]
    have := length_le_flatMap_escChar s
    simp only [jFuelV, serStr, List.length_cons, List.length_append, List.length_singleton]
    omega

theorem needTail_le_ser (xs : List Json) (hxs : ∀ j ∈ xs, SElem j) :
    needTail xs ≤ (tailSer xs).length + 1 := by
  induction xs with
  | nil => simp [needTail, tailSer]
  | cons x xs ih =>
    have h1 := jFuelV_le_ser (hxs x (by simp))
    have h2 := ih (fun j hj => hxs j (by simp [hj]))
    have hunf : needTail (x :: xs) = jFuelV x + 1 + needTail xs := by
      simp [needTail]
      omega
    have hlen : (tailSer (x :: xs)).length =
        1 + (jsonSer x).length + (tailSer xs).length := by
      simp [tailSer]
      omega
    omega

theorem jFuelField_le_ser {j : Json} (hj : SVal j) :
    jFuelField j ≤ (jsonSer j).length + 1 := by
  rcases hj with hj | rfl | ⟨b, rfl⟩ | ⟨xs, rfl, hxs⟩
  · have h1 := jFuelV_le_ser hj
    rcases hj with ⟨i, rfl⟩ | ⟨s, rfl⟩
    · simp only [jFuelField, jFuelV] at *
      omega
    · simp only [jFuelField, jFuelV] at *
      omega
  · simp [jFuelField]
  · simp [jFuelField]
  · have h1 := needTail_le_ser xs hxs
    have hlen : (jsonSer (.arr xs)).length = (jsonSerList xs).length + 2 := by
      show ('[' :: jsonSerList xs ++ [']']).length = _
      simp
    have hts : (tailSer xs).length ≤ (jsonSerList xs).length + 1 := by
      cases xs with
      | nil => simp [tailSer]
      | cons y ys =>
        rw [jsonSerList_eq]
        simp [tailSer]
    simp only [jFuelField]
    omega

theorem needFT_le_ser (fs : List (Str × Json)) (hfs : ∀ kv ∈ fs, SVal kv.2) :
    needFT fs ≤ (fieldsTailSer fs).length + 1 := by
  induction fs with
  | nil => simp [needFT, fieldsTailSer]
  | cons kv fs ih =>
    have h1 := jFuelField_le_ser (hfs kv (by simp))
    have h2 := ih (fun x hx => hfs x (by simp [hx]))
    have h3 := length_le_flatMap_escChar kv.1
    have hunf : needFT (kv :: fs) = kv.1.length + jFuelField kv.2 + needFT fs + 1 := rfl
    have hlen : (fieldsTailSer (kv :: fs)).length =
        1 + ((kv.1.flatMap escChar).length + 2 + 1 + (jsonSer kv.2).length) +
          (fieldsTailSer fs).length := by
      simp [fieldsTailSer, fieldSer, serStr]
      omega
    omega

/-- The field list of a node's JSON image. -/
def nodeFields (n : BTreeNodePage) : List (Str × Json) :=
  ("id".data, .num (.ofNat n.id) [] none) ::
    ("isLeaf".data, .bool n.isLeaf) ::
    ("keys".data, .arr (n.keys.map fun k => .num k [] none)) ::
    ("children".data, .arr (n.children.map fun c => .num (.ofNat c) [] none)) ::
    (match n.values with
     | none => []
     | some vs => [("values".data, .arr (vs.map .str))]) ++
    [("nextLeaf".data,
      match n.nextLeaf with
      | none => .null
      | some p => .num (.ofNat p) [] none)]

theorem nodeToJson_eq (n : BTreeNodePage) : nodeToJson n = .obj (nodeFields n) := rfl

theorem sval_num (i : Int) : SVal (.num i [] none) := Or.inl (Or.inl ⟨i, rfl⟩)

theorem sval_bool (b : Bool) : SVal (.bool b) := Or.inr (Or.inr (Or.inl ⟨b, rfl⟩))

theorem sval_null : SVal .null := Or.inr (Or.inl rfl)

theorem sval_arr_ints (ks : List Int) :
    SVal (.arr (ks.map fun k => Json.num k [] none)) := by
  refine Or.inr (Or.inr (Or.inr ⟨_, rfl, ?_⟩))
  intro x hx
  simp only [List.mem_map] at hx
  obtain ⟨k, _, rfl⟩ := hx
  exact Or.inl ⟨k, rfl⟩

theorem sval_arr_nats (cs : List Nat) :
    SVal (.arr (cs.map fun c => Json.num (.ofNat c) [] none)) := by
  refine Or.inr (Or.inr (Or.inr ⟨_, rfl, ?_⟩))
  intro x hx
  simp only [List.mem_map] at hx
  obtain ⟨c, _, rfl⟩ := hx
  exact Or.inl ⟨.ofNat c, rfl⟩

theorem sval_arr_strs (vs : List Str) : SVal (.arr (vs.map .str)) := by
  refine Or.inr (Or.inr (Or.inr ⟨_, rfl, ?_⟩))
  intro x hx
  simp only [List.mem_map] at hx
  obtain ⟨s, _, rfl⟩ := hx
  exact Or.inr ⟨s, rfl⟩

theorem nodeFields_sval (n : BTreeNodePage) : ∀ kv ∈ nodeFields n, SVal kv.2 := by
  intro kv hkv
  rcases n with ⟨id, isLeaf, keys, children, values, nextLeaf⟩
  cases values with
  | none =>
    cases nextLeaf with
    | none =>
      simp [nodeFields] at hkv
      rcases hkv with h | h | h | h | h
      all_goals rw [h]
      · exact sval_num _
      · exact sval_bool _
      · exact sval_arr_ints _
      · exact sval_arr_nats _
      · exact sval_null
    | some p =>
      simp [nodeFields] at hkv
      rcases hkv with h | h | h | h | h
      all_goals rw [h]
      · exact sval_num _
      · exact sval_bool _
      · exact sval_arr_ints _
      · exact sval_arr_nats _
      · exact sval_num _
  | some vs =>
    cases nextLeaf with
    | none =>
      simp [nodeFields] at hkv
      rcases hkv with h | h | h | h | h | h
      all_goals rw [h]
      · exact sval_num _
      · exact sval_bool _
      · exact sval_arr_ints _
      · exact sval_arr_nats _
      · exact sval_arr_strs _
      · exact sval_null
    | some p =>
      simp [nodeFields] at hkv
      rcases hkv with h | h | h | h | h | h
      all_goals rw [h]
      · exact sval_num _
      · exact sval_bool _
      · exact sval_arr_ints _
      · exact sval_arr_nats _
      · exact sval_arr_strs _
      · exact sval_num _

theorem jsonParse_node (n : BTreeNodePage) :
    jsonParse (jsonSer (nodeToJson n)) = some (nodeToJson n) := by
  have hS := nodeFields_sval n
  have hlen : (jsonSer (nodeToJson n)).length = (jsonSerFields (nodeFields n)).length + 2 := by
    rw [nodeToJson_eq]
    show ('{' :: jsonSerFields (nodeFields n) ++ ['}']).length = _
    simp
  have hb1 : needFT (nodeFields n) ≤ (fieldsTailSer (nodeFields n)).length + 1 :=
    needFT_le_ser _ hS
  have hb2 : (fieldsTailSer (nodeFields n)).length ≤ (jsonSerFields (nodeFields n)).length + 1 := by
    obtain ⟨kv, fs, hkv⟩ : ∃ kv fs, nodeFields n = kv :: fs := ⟨_, _, rfl⟩
    rw [hkv, jsonSerFields_eq]
    simp [fieldsTailSer]
  have hobj := parseJ_value_obj (nodeFields n) []
    (2 * (jsonSer (nodeToJson n)).length + 2) hS (by omega)
  rw [← nodeToJson_eq, List.append_nil] at hobj
  unfold jsonParse parseValue
  rw [hobj]
  simp [skipWs]

theorem optList_asInt_map (ks : List Int) :
    optList asInt (ks.map fun k => Json.num k [] none) = some ks := by
  induction ks with
  | nil => rfl
  | cons k ks ih => simp [optList, asInt, ih]

theorem asNat_cast (c : Nat) : asNat (.num (c : Int) [] none) = some c := rfl

theorem optList_asNat_map (cs : List Nat) :
    optList asNat (cs.map fun (c : Nat) => Json.num (c : Int) [] none) = some cs := by
  induction cs with
  | nil => rfl
  | cons c cs ih => simp [optList, asNat_cast, ih]

theorem optList_asStr_map (vs : List Str) :
    optList asStr (vs.map .str) = some vs := by
  induction vs with
  | nil => rfl
  | cons v vs ih => simp [optList, asStr, ih]

theorem jsonToNode_nodeToJson (n : BTreeNodePage) :
    jsonToNode (nodeToJson n) = some n := by
  rcases n with ⟨id, isLeaf, keys, children, values, nextLeaf⟩
  cases values <;> cases nextLeaf <;>
    simp +decide [nodeToJson, jsonToNode, objGet, asNat, asNat_cast,
      optList_asInt_map, optList_asNat_map, optList_asStr_map, asStr]

/-! ## Lemmas: padding removal and `decodePage ∘ encodePage` -/

theorem dropWhile_replicate_nul (k : Nat) (t : List Char) :
    List.dropWhile (fun c => decide (c = nulChar)) (List.replicate k nulChar ++ t) =
      List.dropWhile (fun c => decide (c = nulChar)) t := by
  induction k with
  | zero => simp
  | succ k ih =>
    rw [List.replicate_succ, List.cons_append, List.dropWhile_cons]
    simp [ih]

theorem strip_append_replicate (s : List Char) (k : Nat)
    (h : s.getLast? ≠ some nulChar) :
    stripTrailingNuls (s ++ List.replicate k nulChar) = s := by
  unfold stripTrailingNuls
  rw [List.reverse_append, List.reverse_replicate, dropWhile_replicate_nul]
  cases hs : s.reverse with
  | nil =>
    have : s = [] := by simpa using congrArg List.reverse hs
    subst this
    simp
  | cons c t =>
    have hc : c ≠ nulChar := by
      intro hcon
      apply h
      rw [← List.head?_reverse, hs, hcon]
      rfl
    rw [List.dropWhile_cons, if_neg (by simp [hc]), ← hs, List.reverse_reverse]

theorem dropWhile_append_singleton_ne {c : Char} (hc : isJsTrimWs c = false)
    (l : List Char) : List.dropWhile isJsTrimWs (l ++ [c]) ≠ [] := by
  induction l with
  | nil => simp [List.dropWhile, hc]
  | cons a t ih =>
    rw [List.cons_append, List.dropWhile_cons]
    by_cases ha : isJsTrimWs a
    · simpa [ha] using ih
    · simp [ha]

theorem jsTrim_cons_ne_nil {c : Char} (cs : List Char) (hc : isJsTrimWs c = false) :
    jsTrim (c :: cs) ≠ [] := by
  unfold jsTrim
  rw [List.dropWhile_cons]
  simp only [hc, Bool.false_eq_true, if_false]
  intro hcon
  have h1 : List.dropWhile isJsTrimWs ((c :: cs).reverse) ≠ [] := by
    rw [List.reverse_cons]
    exact dropWhile_append_singleton_ne hc cs.reverse
  exact h1 (by simpa using congrArg List.reverse hcon)

/-- Core of the codec round trip: a successfully encoded page decodes to
the node's JSON image. -/
theorem decodePage_encodePage {n : BTreeNodePage} {ps : Nat} {bs : List Nat}
    (henc : encodePage n ps = .ok bs) :
    decodePage bs = .ok (nodeToJson n) := by
  unfold encodePage at henc
  by_cases hfit : (utf8Encode (jsonSer (nodeToJson n))).length > ps
  · rw [if_pos hfit] at henc
    cases henc
  · rw [if_neg hfit] at henc
    have hbs : bs = utf8Encode (jsonSer (nodeToJson n)) ++
        List.replicate (ps - (utf8Encode (jsonSer (nodeToJson n))).length) 0 := by
      cases henc
      rfl
    subst hbs
    unfold decodePage utf8DecodeBytes
    have hle := length_le_utf8Encode_length (jsonSer (nodeToJson n))
    have hlen : (utf8Encode (jsonSer (nodeToJson n)) ++
        List.replicate (ps - (utf8Encode (jsonSer (nodeToJson n))).length) 0).length =
        (jsonSer (nodeToJson n)).length +
          ((utf8Encode (jsonSer (nodeToJson n))).length - (jsonSer (nodeToJson n)).length +
            (ps - (utf8Encode (jsonSer (nodeToJson n))).length)) := by
      simp only [List.length_append, List.length_replicate]
      omega
    rw [hlen, utf8Decode_encode_append]
    rw [utf8Decode_replicate_zero _ _ (by omega)]
    have hlast : (jsonSer (nodeToJson n)).getLast? = some '}' := by
      rw [nodeToJson_eq]
      show (('{' :: jsonSerFields (nodeFields n)) ++ ['}']).getLast? = some '}'
      rw [List.getLast?_concat]
    rw [strip_append_replicate _ _ (by rw [hlast]; decide)]
    have hcons : jsonSer (nodeToJson n) =
        '{' :: (jsonSerFields (nodeFields n) ++ ['}']) := by
      rw [nodeToJson_eq]
      rfl
    rw [if_neg (by rw [hcons]; exact jsTrim_cons_ne_nil _ (by decide))]
    rw [jsonParse_node n]

/-! ## Claim C3 -/

/-- **C3.** Codec round trip: for every node whose serialized form fits in
`s` bytes, `encodePage` succeeds and `decodePage` of the encoded block
recovers the node exactly — the decoded JSON value is precisely the node's
JSON image (leaf/internal tag, keys, values or children, and leaf link),
and reading that image back as a node yields the original node. -/
theorem c3_codec_round_trip (n : BTreeNodePage) (s : Nat)
    (hfit : (utf8Encode (jsonSer (nodeToJson n))).length ≤ s) :
    (∃ bs, encodePage n s = .ok bs ∧ decodePage bs = .ok (nodeToJson n)) ∧
      jsonToNode (nodeToJson n) = some n := by
  have henc : encodePage n s =
      .ok (utf8Encode (jsonSer (nodeToJson n)) ++
        List.replicate (s - (utf8Encode (jsonSer (nodeToJson n))).length) 0) := by
    unfold encodePage
    rw [if_neg (by omega)]
  exact ⟨⟨_, henc, decodePage_encodePage henc⟩, jsonToNode_nodeToJson n⟩

/-- Witness for C3 at a concrete leaf node and the default page size. -/
theorem c3_codec_round_trip_witness :
    (utf8Encode (jsonSer (nodeToJson ⟨0, true, [5], [], some ["a".data], none⟩))).length ≤ 4096 ∧
      ((∃ bs, encodePage ⟨0, true, [5], [], some ["a".data], none⟩ 4096 = .ok bs ∧
          decodePage bs = .ok (nodeToJson ⟨0, true, [5], [], some ["a".data], none⟩)) ∧
        jsonToNode (nodeToJson ⟨0, true, [5], [], some ["a".data], none⟩) =
          some ⟨0, true, [5], [], some ["a".data], none⟩) :=
  ⟨by decide, c3_codec_round_trip ⟨0, true, [5], [], some ["a".data], none⟩ 4096 (by decide)⟩

/-! ## Claim C9 -/

/-- **C9 counterexample.** The byte content `123` (zero padded) is not a
valid node shape, yet `decodePage` does not fail with `MalformedPage`: the
source casts the `JSON.parse` result without validation, so the number is
returned as-is. -/
theorem c9_decode_counterexample :
    decodePage (utf8Encode "123".data ++ List.replicate 5 0) =
        .ok (.num 123 [] none) ∧
      jsonToNode (.num 123 [] none) = none := by
  constructor
  · rfl
  · rfl

/-- **C9 amended.** `decodePage` fails with `EmptyPage` exactly when the
block holds no content after stripping the trailing zero padding and
trimming whitespace — in particular every all-zero (allocated but never
written) page — and fails with `MalformedPage` exactly when the remaining
content does not parse as JSON; content that parses as JSON but is not a
valid node shape is returned without error. -/
theorem c9_decode_error_conditions (bs : List Nat) :
    (decodePage bs = .error .emptyPage ↔
      jsTrim (stripTrailingNuls (utf8DecodeBytes bs)) = []) ∧
    (decodePage bs = .error .malformedPage ↔
      (jsTrim (stripTrailingNuls (utf8DecodeBytes bs)) ≠ [] ∧
        jsonParse (stripTrailingNuls (utf8DecodeBytes bs)) = none)) ∧
    (∀ k, decodePage (List.replicate k 0) = .error .emptyPage) := by
  refine ⟨?_, ?_, ?_⟩
  · unfold decodePage
    by_cases h : jsTrim (stripTrailingNuls (utf8DecodeBytes bs)) = []
    · simp [h]
    · rw [if_neg h]
      cases hp : jsonParse (stripTrailingNuls (utf8DecodeBytes bs)) <;> simp [h]
  · unfold decodePage
    by_cases h : jsTrim (stripTrailingNuls (utf8DecodeBytes bs)) = []
    · simp [h]
    · rw [if_neg h]
      cases hp : jsonParse (stripTrailingNuls (utf8DecodeBytes bs)) <;> simp [h]
  · intro k
    have hdec : utf8DecodeBytes (List.replicate k 0) = List.replicate k nulChar := by
      unfold utf8DecodeBytes
      rw [List.length_replicate]
      exact utf8Decode_replicate_zero k k (by omega)
    have hstrip : stripTrailingNuls (List.replicate k nulChar) = [] := by
      have := strip_append_replicate [] k (by simp)
      simpa using this
    unfold decodePage
    rw [hdec, hstrip]
    rfl

/-! ## Lemmas: byte-level store -/

theorem writeBytesAt_length (file : List Nat) (off : Nat) (data : List Nat) :
    (writeBytesAt file off data).length = max (off + data.length) file.length := by
  unfold writeBytesAt
  simp only [List.length_append, List.length_take, List.length_replicate,
    List.length_drop]
  omega

theorem writeBytesAt_decomp (f : List Nat) (off : Nat) (d : List Nat) :
    writeBytesAt f off d =
      (f.take off ++ List.replicate (off - f.length) 0) ++
        (d ++ f.drop (off + d.length)) := by
  unfold writeBytesAt
  simp [List.append_assoc]

theorem writeBytesAt_pre_length (f : List Nat) (off : Nat) :
    (f.take off ++ List.replicate (off - f.length) 0).length = off := by
  simp only [List.length_append, List.length_take, List.length_replicate]
  omega

/-- Reading back exactly the just-written block. -/
theorem readBytesAt_writeBytesAt_self (f : List Nat) (off : Nat) (d : List Nat) :
    readBytesAt (writeBytesAt f off d) off d.length = d := by
  unfold readBytesAt
  rw [writeBytesAt_decomp]
  rw [List.drop_append_eq_append_drop]
  have hpre := writeBytesAt_pre_length f off
  have h1 : off - (f.take off ++ List.replicate (off - f.length) 0).length = 0 := by
    omega
  have h3 : (f.take off ++ List.replicate (off - f.length) 0).drop off = [] := by
    refine List.length_eq_zero.mp ?_
    simp [List.length_drop, hpre]
  rw [h1, List.drop_zero, h3, List.nil_append]
  rw [List.take_append_eq_append_take]
  rw [List.take_length]
  simp

/-- A write strictly above the read region leaves the read unchanged
(no-gap write: the write offset is within the current file). -/
theorem readBytesAt_writeBytesAt_below (f : List Nat) (off1 count off2 : Nat)
    (d : List Nat) (h1 : off1 + count ≤ off2) (h2 : off2 ≤ f.length) :
    readBytesAt (writeBytesAt f off2 d) off1 count = readBytesAt f off1 count := by
  unfold readBytesAt
  rw [writeBytesAt_decomp]
  have hrep : List.replicate (off2 - f.length) (0 : Nat) = [] := by
    have : off2 - f.length = 0 := by omega
    rw [this]
    rfl
  rw [hrep, List.append_nil]
  rw [List.drop_append_eq_append_drop, List.take_append_eq_append_take]
  have hA : (f.take off2).length = off2 := by
    simp [List.length_take]
    omega
  have hd1 : ((f.take off2).drop off1).length = off2 - off1 := by
    simp [List.length_drop, hA]
  have hz : count - ((f.take off2).drop off1).length = 0 := by omega
  rw [hz, List.take_zero, List.append_nil]
  rw [List.drop_take, List.take_take]
  congr 1
  omega

/-! ## Claim C10 -/

/-- **C10.** Store length invariant: construction over a file whose length
is a multiple of the page size succeeds and establishes
`file length = nextPageId × pageSize`; every `allocatePage` and every
`writePage` to an already-allocated id preserve the invariant; and a
construction over a file satisfying it never fails with `CorruptStore`. -/
theorem c10_file_length_invariant :
    (∀ (file : List Nat) (ps : Nat), ps ∣ file.length →
      FileManager.create file ps = .ok ⟨ps, file, file.length / ps⟩ ∧
        (file.length / ps) * ps = file.length) ∧
    (∀ fm : FileManager, fm.file.length = fm.nextPageId * fm.pageSize →
      fm.allocatePage.2.file.length =
        fm.allocatePage.2.nextPageId * fm.allocatePage.2.pageSize) ∧
    (∀ (fm : FileManager) (id : Nat) (data : List Nat) (fm' : FileManager),
      fm.file.length = fm.nextPageId * fm.pageSize → id < fm.nextPageId →
      fm.writePage id data = .ok fm' →
      fm'.file.length = fm'.nextPageId * fm'.pageSize) ∧
    (∀ fm : FileManager, fm.file.length = fm.nextPageId * fm.pageSize →
      ∃ fm₂, FileManager.create fm.file fm.pageSize = .ok fm₂) := by
  refine ⟨?_, ?_, ?_, ?_⟩
  · intro file ps hdvd
    have hmod : file.length % ps = 0 := Nat.eq_zero_of_dvd_of_lt hdvd |> fun _ => Nat.mod_eq_zero_of_dvd hdvd
    constructor
    · unfold FileManager.create
      rw [if_neg (by omega)]
    · exact Nat.div_mul_cancel hdvd
  · intro fm hinv
    unfold FileManager.allocatePage
    simp only
    rw [writeBytesAt_length, writeBytesAt_length]
    simp only [List.length_replicate, Nat.zero_add]
    have hmul : (fm.nextPageId + 1) * fm.pageSize =
        fm.nextPageId * fm.pageSize + fm.pageSize := by ring
    omega
  · intro fm id data fm' hinv hid hw
    unfold FileManager.writePage at hw
    by_cases hlen : data.length ≠ fm.pageSize
    · rw [if_pos hlen] at hw
      cases hw
    · rw [if_neg hlen] at hw
      cases hw
      simp only [writeBytesAt_length]
      push_neg at hlen
      have hmul : (id + 1) * fm.pageSize = id * fm.pageSize + fm.pageSize := by ring
      have hle : (id + 1) * fm.pageSize ≤ fm.nextPageId * fm.pageSize :=
        Nat.mul_le_mul_right _ (by omega)
      rw [hlen]
      omega
  · intro fm hinv
    refine ⟨⟨fm.pageSize, fm.file, fm.file.length / fm.pageSize⟩, ?_⟩
    unfold FileManager.create
    rw [if_neg ?_]
    simp only [ne_eq, Decidable.not_not]
    rw [hinv]
    exact Nat.mul_mod_left _ _

/-- Witness for C10: a one-page store with page size 4. -/
theorem c10_file_length_invariant_witness :
    ((4 : Nat) ∣ ([0, 0, 0, 0] : List Nat).length ∧
      (⟨4, [0, 0, 0, 0], 1⟩ : FileManager).file.length =
        (⟨4, [0, 0, 0, 0], 1⟩ : FileManager).nextPageId *
          (⟨4, [0, 0, 0, 0], 1⟩ : FileManager).pageSize) ∧
    (FileManager.create [0, 0, 0, 0] 4 = .ok ⟨4, [0, 0, 0, 0], 1⟩ ∧
      (([0, 0, 0, 0] : List Nat).length / 4) * 4 = ([0, 0, 0, 0] : List Nat).length) ∧
    (⟨4, [0, 0, 0, 0], 1⟩ : FileManager).allocatePage.2.file.length =
      (⟨4, [0, 0, 0, 0], 1⟩ : FileManager).allocatePage.2.nextPageId *
        (⟨4, [0, 0, 0, 0], 1⟩ : FileManager).allocatePage.2.pageSize :=
  ⟨⟨by decide, by decide⟩,
    by
      have h := (c10_file_length_invariant.1 [0, 0, 0, 0] 4 (by decide))
      simpa using h,
    (c10_file_length_invariant.2.1 ⟨4, [0, 0, 0, 0], 1⟩ (by decide))⟩

/-! ## Claim C8 -/

/-- **C8.** `readPage` fails with `PageNotFound` precisely when the offset
`id × pageSize` is at or beyond end-of-file or fewer than `pageSize` bytes
remain there (on the store invariant `pageSize ∣ length` the two collapse:
a short read cannot happen); otherwise it returns exactly the `pageSize`
bytes stored at that offset. -/
theorem c8_readPage_notFound_iff (fm : FileManager) (id : Nat)
    (hps : 0 < fm.pageSize) (hdvd : fm.pageSize ∣ fm.file.length) :
    (fm.readPage id = .error .pageNotFound ↔
      (fm.file.length ≤ id * fm.pageSize ∨
        fm.file.length - id * fm.pageSize < fm.pageSize)) ∧
    (fm.readPage id ≠ .error .pageNotFound →
      fm.readPage id = .ok ((fm.file.drop (id * fm.pageSize)).take fm.pageSize) ∧
        ((fm.file.drop (id * fm.pageSize)).take fm.pageSize).length = fm.pageSize) := by
  obtain ⟨m, hm⟩ := hdvd
  have hrd : (readBytesAt fm.file (id * fm.pageSize) fm.pageSize).length =
      min fm.pageSize (fm.file.length - id * fm.pageSize) := by
    unfold readBytesAt
    simp [List.length_take, List.length_drop]
  by_cases hin : fm.file.length ≤ id * fm.pageSize
  · have hzero : (readBytesAt fm.file (id * fm.pageSize) fm.pageSize).length = 0 := by
      omega
    have herr : fm.readPage id = .error .pageNotFound := by
      unfold FileManager.readPage
      rw [if_pos hzero]
    refine ⟨⟨fun _ => Or.inl hin, fun _ => herr⟩, fun hne => absurd herr hne⟩
  · have hlt : id < m := by
      by_contra hcon
      push_neg at hcon
      have : fm.file.length ≤ id * fm.pageSize := by
        rw [hm]
        calc fm.pageSize * m ≤ fm.pageSize * id := Nat.mul_le_mul_left _ hcon
          _ = id * fm.pageSize := Nat.mul_comm _ _
      omega
    have hroom : id * fm.pageSize + fm.pageSize ≤ fm.file.length := by
      rw [hm]
      calc id * fm.pageSize + fm.pageSize = (id + 1) * fm.pageSize := by ring
        _ ≤ m * fm.pageSize := Nat.mul_le_mul_right _ (by omega)
        _ = fm.pageSize * m := Nat.mul_comm _ _
    have hfull : (readBytesAt fm.file (id * fm.pageSize) fm.pageSize).length =
        fm.pageSize := by
      omega
    have hok : fm.readPage id =
        .ok ((fm.file.drop (id * fm.pageSize)).take fm.pageSize) := by
      unfold FileManager.readPage
      rw [if_neg (by omega)]
      rw [hfull]
      simp [readBytesAt]
    refine ⟨⟨fun hcon => ?_, fun hcon => ?_⟩, fun _ => ⟨hok, ?_⟩⟩
    · rw [hok] at hcon
      cases hcon
    · omega
    · have : (fm.file.drop (id * fm.pageSize)).take fm.pageSize =
          readBytesAt fm.file (id * fm.pageSize) fm.pageSize := rfl
      rw [this, hfull]

/-- Witness for C8: a two-page store with page size 2; page 1 is read back
exactly, page 5 is absent. -/
theorem c8_readPage_notFound_iff_witness :
    (0 < (⟨2, [7, 8, 9, 10], 2⟩ : FileManager).pageSize ∧
      (⟨2, [7, 8, 9, 10], 2⟩ : FileManager).pageSize ∣
        (⟨2, [7, 8, 9, 10], 2⟩ : FileManager).file.length) ∧
    ((⟨2, [7, 8, 9, 10], 2⟩ : FileManager).readPage 1 = .ok [9, 10] ∧
      (⟨2, [7, 8, 9, 10], 2⟩ : FileManager).readPage 5 = .error .pageNotFound) := by
  refine ⟨⟨by decide, by decide⟩, ?_, ?_⟩
  · have hok : (⟨2, [7, 8, 9, 10], 2⟩ : FileManager).readPage 1 = .ok [9, 10] := rfl
    have h := (c8_readPage_notFound_iff ⟨2, [7, 8, 9, 10], 2⟩ 1 (by decide) (by decide)).2
      (by rw [hok]; intro hcon; cases hcon)
    have hval : ((([7, 8, 9, 10] : List Nat).drop (1 * 2)).take 2) = [9, 10] := by decide
    rw [← hval]
    exact h.1
  · exact ((c8_readPage_notFound_iff ⟨2, [7, 8, 9, 10], 2⟩ 5 (by decide) (by decide)).1).mpr
      (by decide)

/-! ## Claim C2 -/

/-- **C2 evaluation.** `allocatePage` does extend the file by one zero page
at the correct offset and return the next id, but it also rewrites the
first `pageSize` bytes of the file with zeros (`fs.writeFileSync` at
position 0): after writing `[1,2,3,4]` to page 0, a subsequent `allocate`
destroys it. The spec itself flags this double-write as a defect and
states the intended append-only contract, so this is a code bug, not a
spec error. -/
theorem c2_allocatePage_clobbers_page0 :
    (do
      let fm ← FileManager.create [] 4
      let a0 := fm.allocatePage
      let fm2 ← a0.2.writePage 0 [1, 2, 3, 4]
      let a1 := fm2.allocatePage
      let bytes ← a1.2.readPage 0
      pure (a0.1, a1.1, a1.2.file.length, bytes) :
        Except Err (Nat × Nat × Nat × List Nat)) =
      .ok (0, 1, 8, [0, 0, 0, 0]) ∧ ([0, 0, 0, 0] : List Nat) ≠ [1, 2, 3, 4] := by
  constructor
  · rfl
  · decide

/-! ## Lemmas: writing and re-reading nodes -/

theorem except_ok_bind {ε α β : Type} (a : α) (f : α → Except ε β) :
    ((Except.ok a : Except ε α) >>= f) = f a := rfl

theorem encodePage_ok_length {n : BTreeNodePage} {ps : Nat} {bs : List Nat}
    (h : encodePage n ps = .ok bs) : bs.length = ps := by
  unfold encodePage at h
  by_cases hfit : (utf8Encode (jsonSer (nodeToJson n))).length > ps
  · rw [if_pos hfit] at h
    cases h
  · rw [if_neg hfit] at h
    cases h
    simp only [List.length_append, List.length_replicate]
    omega

theorem writeNode_ok {fm : FileManager} {n : BTreeNodePage} {bs : List Nat}
    (h : encodePage n fm.pageSize = .ok bs) :
    writeNode fm n =
      .ok { fm with file := writeBytesAt fm.file (n.id * fm.pageSize) bs } := by
  unfold writeNode
  rw [h, except_ok_bind]
  unfold FileManager.writePage
  rw [if_neg (by rw [encodePage_ok_length h]; omega)]

/-- Reading a page that holds exactly an encoded node yields the node. -/
theorem readNode_of_bytes {fm : FileManager} {id : Nat} {n : BTreeNodePage}
    {bs : List Nat} (hps : 0 < fm.pageSize)
    (henc : encodePage n fm.pageSize = .ok bs)
    (hbytes : readBytesAt fm.file (id * fm.pageSize) fm.pageSize = bs) :
    readNode fm id = .ok n := by
  have hlen : bs.length = fm.pageSize := encodePage_ok_length henc
  have hrp : fm.readPage id = .ok bs := by
    simp only [FileManager.readPage, hbytes]
    rw [if_neg (by omega), hlen]
    simp
  unfold readNode
  rw [hrp, except_ok_bind, decodePage_encodePage henc, except_ok_bind,
    jsonToNode_nodeToJson]

/-! ## Claim C5 -/

/-- **C5.** Leaf split algorithm: splitting a leaf with `newLength` keys
takes `mid = ⌈newLength / 2⌉` (written `(newLength + 1) / 2`); the new
right leaf receives the keys and values from index `mid` onward and the
left leaf keeps the prefix; the right leaf is linked into the chain
(`left.nextLeaf = right.id`, `right.nextLeaf` = left's old link); the
promoted key is `right.keys[0]`, which equals `keys[mid]` and remains
present in the right leaf. -/
theorem c5_splitLeaf_spec (fm : FileManager) (node : BTreeNodePage)
    (order : Nat) (vs : List Str)
    (hps : 0 < fm.pageSize)
    (hinv : fm.file.length = fm.nextPageId * fm.pageSize)
    (hid : node.id < fm.nextPageId)
    (hvals : node.values = some vs)
    (horder : 3 ≤ order) (hover : order < node.keys.length)
    (hfitL : (utf8Encode (jsonSer (nodeToJson { node with
      keys := node.keys.take ((node.keys.length + 1) / 2),
      values := some (vs.take ((node.keys.length + 1) / 2)),
      nextLeaf := some fm.nextPageId }))).length ≤ fm.pageSize)
    (hfitR : (utf8Encode (jsonSer (nodeToJson ⟨fm.nextPageId, true,
      node.keys.drop ((node.keys.length + 1) / 2), [],
      some (vs.drop ((node.keys.length + 1) / 2)),
      node.nextLeaf⟩))).length ≤ fm.pageSize) :
    ∃ fm' : FileManager,
      splitLeaf fm node =
        .ok (⟨(node.keys.drop ((node.keys.length + 1) / 2)).headD 0,
          fm.nextPageId⟩, fm') ∧
      readNode fm' node.id = .ok { node with
        keys := node.keys.take ((node.keys.length + 1) / 2),
        values := some (vs.take ((node.keys.length + 1) / 2)),
        nextLeaf := some fm.nextPageId } ∧
      readNode fm' fm.nextPageId = .ok ⟨fm.nextPageId, true,
        node.keys.drop ((node.keys.length + 1) / 2), [],
        some (vs.drop ((node.keys.length + 1) / 2)), node.nextLeaf⟩ ∧
      (node.keys.drop ((node.keys.length + 1) / 2)).headD 0 ∈
        node.keys.drop ((node.keys.length + 1) / 2) ∧
      (node.keys.drop ((node.keys.length + 1) / 2)).headD 0 =
        node.keys.getD ((node.keys.length + 1) / 2) 0 := by
  have hmid : (node.keys.length + 1) / 2 < node.keys.length := by omega
  set mid := (node.keys.length + 1) / 2 with hmiddef
  set ps := fm.pageSize with hpsdef
  set rid := fm.nextPageId with hriddef
  set leftN : BTreeNodePage := { node with
    keys := node.keys.take mid, values := some (vs.take mid),
    nextLeaf := some rid } with hleftdef
  set rightN : BTreeNodePage :=
    ⟨rid, true, node.keys.drop mid, [], some (vs.drop mid), node.nextLeaf⟩
    with hrightdef
  obtain ⟨bl, hencL⟩ : ∃ bs, encodePage leftN ps = .ok bs := by
    unfold encodePage
    rw [if_neg (by omega)]
    exact ⟨_, rfl⟩
  obtain ⟨br, hencR⟩ : ∃ bs, encodePage rightN ps = .ok bs := by
    unfold encodePage
    rw [if_neg (by omega)]
    exact ⟨_, rfl⟩
  have hbl : bl.length = ps := encodePage_ok_length hencL
  have hbr : br.length = ps := encodePage_ok_length hencR
  -- the store after the two zero-writes of allocatePage
  set f1 : List Nat := writeBytesAt (writeBytesAt fm.file 0 (List.replicate ps 0))
    (rid * ps) (List.replicate ps 0) with hf1def
  have hf1len : f1.length = (rid + 1) * ps := by
    rw [hf1def, writeBytesAt_length, writeBytesAt_length]
    simp only [List.length_replicate, Nat.zero_add]
    have : (rid + 1) * ps = rid * ps + ps := by ring
    omega
  set fm1 : FileManager := { fm with file := f1, nextPageId := rid + 1 } with hfm1def
  have hallocate : fm.allocatePage = (rid, fm1) := rfl
  -- write the left node
  have hfm1ps : fm1.pageSize = ps := rfl
  have hw1 : writeNode fm1 leftN =
      .ok { fm1 with file := writeBytesAt f1 (leftN.id * ps) bl } := by
    have := @writeNode_ok fm1 leftN bl hencL
    exact this
  set f2 : List Nat := writeBytesAt f1 (leftN.id * ps) bl with hf2def
  have hlid : leftN.id = node.id := rfl
  have hf2len : f2.length = (rid + 1) * ps := by
    rw [hf2def, writeBytesAt_length, hf1len, hbl, hlid]
    have h1 : (node.id + 1) * ps ≤ (rid + 1) * ps :=
      Nat.mul_le_mul_right _ (by omega)
    have h2 : (node.id + 1) * ps = node.id * ps + ps := by ring
    omega
  set fm2 : FileManager := { fm1 with file := f2 } with hfm2def
  have hw2 : writeNode fm2 rightN =
      .ok { fm2 with file := writeBytesAt f2 (rightN.id * ps) br } := by
    have := @writeNode_ok fm2 rightN br hencR
    exact this
  set f3 : List Nat := writeBytesAt f2 (rid * ps) br with hf3def
  set fm3 : FileManager := { fm2 with file := f3 } with hfm3def
  refine ⟨fm3, ?_, ?_, ?_, ?_, ?_⟩
  · show splitLeaf fm node = .ok (⟨(node.keys.drop mid).headD 0, rid⟩, fm3)
    unfold splitLeaf
    rw [hvals]
    simp only [hallocate]
    rw [hw1, except_ok_bind, hw2, except_ok_bind]
  · -- read back the left node through the frame of the right write
    refine @readNode_of_bytes fm3 _ _ _ hps hencL ?_
    show readBytesAt f3 (node.id * ps) ps = bl
    rw [hf3def]
    rw [readBytesAt_writeBytesAt_below f2 (node.id * ps) ps (rid * ps) br
      (by
        have : (node.id + 1) * ps ≤ rid * ps := Nat.mul_le_mul_right _ (by omega)
        have h2 : (node.id + 1) * ps = node.id * ps + ps := by ring
        omega)
      (by
        rw [hf2len]
        have : rid * ps ≤ (rid + 1) * ps := Nat.mul_le_mul_right _ (by omega)
        omega)]
    rw [hf2def, ← hlid]
    have := readBytesAt_writeBytesAt_self f1 (leftN.id * ps) bl
    rw [hbl] at this
    exact this
  · refine @readNode_of_bytes fm3 _ _ _ hps hencR ?_
    show readBytesAt f3 (rid * ps) ps = br
    rw [hf3def]
    have := readBytesAt_writeBytesAt_self f2 (rid * ps) br
    rw [hbr] at this
    exact this
  · obtain ⟨k, t, hkt⟩ : ∃ k t, node.keys.drop mid = k :: t := by
      cases hd : node.keys.drop mid with
      | nil =>
        have : node.keys.length ≤ mid := by
          have := List.drop_eq_nil_iff.mp hd
          omega
        omega
      | cons k t => exact ⟨k, t, rfl⟩
    rw [hkt]
    simp
  · have h1 : (node.keys.drop mid).head? = node.keys[mid]? := List.head?_drop _ _
    rw [List.headD_eq_head?_getD, h1]
    exact (List.getD_eq_getElem?_getD _ _ _).symm

set_option maxRecDepth 40000 in
/-- Concrete instance of C5: splitting the overfull leaf `[1,2,3,4]`
(order 3) takes `mid = 2`, keeps `[1,2]` on the left, moves `[3,4]` to the
new right leaf and promotes `3 = keys[2]`. -/
theorem c5_splitLeaf_spec_witness :
    ∃ fm' : FileManager,
      splitLeaf ⟨128, List.replicate 128 0, 1⟩
          ⟨0, true, [1, 2, 3, 4], [], some [['a'], ['b'], ['c'], ['d']], none⟩ =
        .ok (⟨3, 1⟩, fm') ∧
      readNode fm' 0 = .ok ⟨0, true, [1, 2], [], some [['a'], ['b']], some 1⟩ ∧
      readNode fm' 1 = .ok ⟨1, true, [3, 4], [], some [['c'], ['d']], none⟩ ∧
      (3 : Int) ∈ ([3, 4] : List Int) ∧
      (3 : Int) = ([1, 2, 3, 4] : List Int).getD 2 0 :=
  c5_splitLeaf_spec ⟨128, List.replicate 128 0, 1⟩
    ⟨0, true, [1, 2, 3, 4], [], some [['a'], ['b'], ['c'], ['d']], none⟩ 3
    [['a'], ['b'], ['c'], ['d']]
    (by decide) (by decide) (by decide) rfl (by decide) (by decide)
    (by decide) (by decide)

/-! ## Claim C7 -/

/-- **C7.** Internal split algorithm: splitting an internal node with
`newLength` keys takes `midIndex = ⌊newLength / 2⌋`; the key at `midIndex`
is promoted and — when the keys are strictly sorted — appears in neither
resulting node; the left node keeps keys `[0, midIndex)` with children
`[0, midIndex]`, and the right node receives the keys and children from
`midIndex + 1` on. -/
theorem c7_splitInternal_spec (fm : FileManager) (node : BTreeNodePage)
    (hps : 0 < fm.pageSize)
    (hinv : fm.file.length = fm.nextPageId * fm.pageSize)
    (hid : node.id < fm.nextPageId)
    (hne : node.keys ≠ [])
    (hsorted : node.keys.Pairwise (· < ·))
    (hfitL : (utf8Encode (jsonSer (nodeToJson { node with
      keys := node.keys.take (node.keys.length / 2),
      children := node.children.take (node.keys.length / 2 + 1) }))).length ≤
        fm.pageSize)
    (hfitR : (utf8Encode (jsonSer (nodeToJson ⟨fm.nextPageId, false,
      node.keys.drop (node.keys.length / 2 + 1),
      node.children.drop (node.keys.length / 2 + 1),
      none, none⟩))).length ≤ fm.pageSize) :
    ∃ fm' : FileManager,
      splitInternal fm node =
        .ok (⟨node.keys.getD (node.keys.length / 2) 0, fm.nextPageId⟩, fm') ∧
      readNode fm' node.id = .ok { node with
        keys := node.keys.take (node.keys.length / 2),
        children := node.children.take (node.keys.length / 2 + 1) } ∧
      readNode fm' fm.nextPageId = .ok ⟨fm.nextPageId, false,
        node.keys.drop (node.keys.length / 2 + 1),
        node.children.drop (node.keys.length / 2 + 1), none, none⟩ ∧
      node.keys.getD (node.keys.length / 2) 0 ∉
        node.keys.take (node.keys.length / 2) ∧
      node.keys.getD (node.keys.length / 2) 0 ∉
        node.keys.drop (node.keys.length / 2 + 1) := by
  have hlen : 0 < node.keys.length := List.length_pos.mpr hne
  have hmid : node.keys.length / 2 < node.keys.length := by omega
  set mid := node.keys.length / 2 with hmiddef
  set ps := fm.pageSize with hpsdef
  set rid := fm.nextPageId with hriddef
  set leftN : BTreeNodePage := { node with
    keys := node.keys.take mid,
    children := node.children.take (mid + 1) } with hleftdef
  set rightN : BTreeNodePage :=
    ⟨rid, false, node.keys.drop (mid + 1), node.children.drop (mid + 1),
      none, none⟩ with hrightdef
  obtain ⟨bl, hencL⟩ : ∃ bs, encodePage leftN ps = .ok bs := by
    unfold encodePage
    rw [if_neg (by omega)]
    exact ⟨_, rfl⟩
  obtain ⟨br, hencR⟩ : ∃ bs, encodePage rightN ps = .ok bs := by
    unfold encodePage
    rw [if_neg (by omega)]
    exact ⟨_, rfl⟩
  have hbl : bl.length = ps := encodePage_ok_length hencL
  have hbr : br.length = ps := encodePage_ok_length hencR
  set f1 : List Nat := writeBytesAt (writeBytesAt fm.file 0 (List.replicate ps 0))
    (rid * ps) (List.replicate ps 0) with hf1def
  have hf1len : f1.length = (rid + 1) * ps := by
    rw [hf1def, writeBytesAt_length, writeBytesAt_length]
    simp only [List.length_replicate, Nat.zero_add]
    have : (rid + 1) * ps = rid * ps + ps := by ring
    omega
  set fm1 : FileManager := { fm with file := f1, nextPageId := rid + 1 } with hfm1def
  have hallocate : fm.allocatePage = (rid, fm1) := rfl
  have hw1 : writeNode fm1 leftN =
      .ok { fm1 with file := writeBytesAt f1 (leftN.id * ps) bl } := by
    have := @writeNode_ok fm1 leftN bl hencL
    exact this
  set f2 : List Nat := writeBytesAt f1 (leftN.id * ps) bl with hf2def
  have hlid : leftN.id = node.id := rfl
  have hf2len : f2.length = (rid + 1) * ps := by
    rw [hf2def, writeBytesAt_length, hf1len, hbl, hlid]
    have h1 : (node.id + 1) * ps ≤ (rid + 1) * ps :=
      Nat.mul_le_mul_right _ (by omega)
    have h2 : (node.id + 1) * ps = node.id * ps + ps := by ring
    omega
  set fm2 : FileManager := { fm1 with file := f2 } with hfm2def
  have hw2 : writeNode fm2 rightN =
      .ok { fm2 with file := writeBytesAt f2 (rightN.id * ps) br } := by
    have := @writeNode_ok fm2 rightN br hencR
    exact this
  set f3 : List Nat := writeBytesAt f2 (rid * ps) br with hf3def
  set fm3 : FileManager := { fm2 with file := f3 } with hfm3def
  have hgetd : node.keys.getD mid 0 = node.keys.get ⟨mid, hmid⟩ := by
    rw [List.getD_eq_getElem?_getD, List.getElem?_eq_getElem hmid]
    rfl
  have hpw := List.pairwise_iff_getElem.mp hsorted
  refine ⟨fm3, ?_, ?_, ?_, ?_, ?_⟩
  · show splitInternal fm node = .ok (⟨node.keys.getD mid 0, rid⟩, fm3)
    unfold splitInternal
    simp only [hallocate]
    rw [hw1, except_ok_bind, hw2, except_ok_bind]
  · refine @readNode_of_bytes fm3 _ _ _ hps hencL ?_
    show readBytesAt f3 (node.id * ps) ps = bl
    rw [hf3def]
    rw [readBytesAt_writeBytesAt_below f2 (node.id * ps) ps (rid * ps) br
      (by
        have : (node.id + 1) * ps ≤ rid * ps := Nat.mul_le_mul_right _ (by omega)
        have h2 : (node.id + 1) * ps = node.id * ps + ps := by ring
        omega)
      (by
        rw [hf2len]
        have : rid * ps ≤ (rid + 1) * ps := Nat.mul_le_mul_right _ (by omega)
        omega)]
    rw [hf2def, ← hlid]
    have := readBytesAt_writeBytesAt_self f1 (leftN.id * ps) bl
    rw [hbl] at this
    exact this
  · refine @readNode_of_bytes fm3 _ _ _ hps hencR ?_
    show readBytesAt f3 (rid * ps) ps = br
    rw [hf3def]
    have := readBytesAt_writeBytesAt_self f2 (rid * ps) br
    rw [hbr] at this
    exact this
  · rw [hgetd]
    intro hmem
    obtain ⟨i, hi, hieq⟩ := List.getElem_of_mem hmem
    have hilt : i < mid := by
      have := hi
      simp only [List.length_take] at this
      omega
    have hikeys : i < node.keys.length := by omega
    have hitake : (node.keys.take mid)[i] = node.keys[i] := List.getElem_take _
    have hlt : node.keys[i] < node.keys.get ⟨mid, hmid⟩ :=
      hpw i mid hikeys hmid hilt
    rw [hitake] at hieq
    rw [hieq] at hlt
    exact lt_irrefl _ hlt
  · rw [hgetd]
    intro hmem
    obtain ⟨i, hi, hieq⟩ := List.getElem_of_mem hmem
    have hib : mid + 1 + i < node.keys.length := by
      have := hi
      simp only [List.length_drop] at this
      omega
    have hidrop : (node.keys.drop (mid + 1))[i] = node.keys[mid + 1 + i] :=
      List.getElem_drop _
    have hlt : node.keys.get ⟨mid, hmid⟩ < node.keys[mid + 1 + i] :=
      hpw mid (mid + 1 + i) hmid hib (by omega)
    rw [hidrop] at hieq
    rw [← hieq] at hlt
    exact lt_irrefl _ hlt

set_option maxRecDepth 40000 in
/-- Concrete instance of C7: splitting the internal node with keys
`[10,20,30]` and children `[5,6,7,8]` takes `midIndex = 1`, promotes `20`,
keeps keys `[10]` / children `[5,6]` on the left and gives keys `[30]` /
children `[7,8]` to the right; `20` is in neither side. -/
theorem c7_splitInternal_spec_witness :
    ∃ fm' : FileManager,
      splitInternal ⟨128, List.replicate 256 0, 2⟩
          ⟨0, false, [10, 20, 30], [5, 6, 7, 8], none, none⟩ =
        .ok (⟨20, 2⟩, fm') ∧
      readNode fm' 0 = .ok ⟨0, false, [10], [5, 6], none, none⟩ ∧
      readNode fm' 2 = .ok ⟨2, false, [30], [7, 8], none, none⟩ ∧
      (20 : Int) ∉ ([10] : List Int) ∧
      (20 : Int) ∉ ([30] : List Int) :=
  c7_splitInternal_spec ⟨128, List.replicate 256 0, 2⟩
    ⟨0, false, [10, 20, 30], [5, 6, 7, 8], none, none⟩
    (by decide) (by decide) (by decide) (by decide) (by decide)
    (by decide) (by decide)

/-! ## A concrete execution: order 4, page size 128, keys 5, 10, 15, 20, 25

The states below are the exact byte-level stores the program produces; each
step lemma is checked by kernel reduction of the model. -/

/-- The page image of a node: its serialized bytes, zero-padded to the page
size. -/
def pageOf (ps : Nat) (n : BTreeNodePage) : List Nat :=
  utf8Encode (jsonSer (nodeToJson n)) ++
    List.replicate (ps - (utf8Encode (jsonSer (nodeToJson n))).length) 0

/-- State after `new BPlusTree(file, 4)` on a fresh store with page size
128: one empty leaf root on page 0. -/
def trA : BPlusTree :=
  ⟨⟨128, pageOf 128 ⟨0, true, [], [], some [], none⟩, 1⟩, 0, 4⟩

/-- State after `put(5, "a")`. -/
def trB : BPlusTree :=
  ⟨⟨128, pageOf 128 ⟨0, true, [5], [], some [['a']], none⟩, 1⟩, 0, 4⟩

/-- State after `put(10, "b")`. -/
def trC : BPlusTree :=
  ⟨⟨128, pageOf 128 ⟨0, true, [5, 10], [], some [['a'], ['b']], none⟩, 1⟩, 0, 4⟩

/-- State after `put(15, "c")`. -/
def trD : BPlusTree :=
  ⟨⟨128, pageOf 128 ⟨0, true, [5, 10, 15], [], some [['a'], ['b'], ['c']],
    none⟩, 1⟩, 0, 4⟩

/-- State after `put(20, "d")`. -/
def trE : BPlusTree :=
  ⟨⟨128, pageOf 128 ⟨0, true, [5, 10, 15, 20], [],
    some [['a'], ['b'], ['c'], ['d']], none⟩, 1⟩, 0, 4⟩

/-- State after `put(25, "e")`: the leaf split promoted 20 and partitioned
the keys `\x7b5,10,15\x7d` / `\x7b20,25\x7d`, and the root allocation's
stray full-file write has zeroed page 0, destroying the left leaf. -/
def trF : BPlusTree :=
  ⟨⟨128, List.replicate 128 0 ++
    pageOf 128 ⟨1, true, [20, 25], [], some [['d'], ['e']], none⟩ ++
    pageOf 128 ⟨2, false, [20], [0, 1], none, none⟩, 3⟩, 2, 4⟩

set_option maxRecDepth 40000 in
set_option maxHeartbeats 4000000 in
theorem trace_create :
    (do
      let fm ← FileManager.create [] 128
      BPlusTree.create fm 4) = .ok trA := by rfl

set_option maxRecDepth 40000 in
set_option maxHeartbeats 4000000 in
theorem trace_put5 : trA.insert 5 ['a'] = .ok trB := by rfl

set_option maxRecDepth 40000 in
set_option maxHeartbeats 4000000 in
theorem trace_put10 : trB.insert 10 ['b'] = .ok trC := by rfl

set_option maxRecDepth 40000 in
set_option maxHeartbeats 4000000 in
theorem trace_put15 : trC.insert 15 ['c'] = .ok trD := by rfl

set_option maxRecDepth 40000 in
set_option maxHeartbeats 4000000 in
theorem trace_put20 : trD.insert 20 ['d'] = .ok trE := by rfl

set_option maxRecDepth 40000 in
set_option maxHeartbeats 4000000 in
theorem trace_put25 : trE.insert 25 ['e'] = .ok trF := by rfl

set_option maxRecDepth 40000 in
set_option maxHeartbeats 4000000 in
theorem trace_search5 : trF.search 5 = .error .emptyPage := by rfl

set_option maxRecDepth 40000 in
set_option maxHeartbeats 4000000 in
theorem trace_search15 : trF.search 15 = .error .emptyPage := by rfl

set_option maxRecDepth 40000 in
set_option maxHeartbeats 4000000 in
theorem trace_search25 : trF.search 25 = .ok (some ['e']) := by rfl

set_option maxRecDepth 40000 in
set_option maxHeartbeats 4000000 in
theorem trace_range : trF.range 5 25 = .error .emptyPage := by rfl

set_option maxRecDepth 40000 in
set_option maxHeartbeats 4000000 in
theorem trace_root :
    readNode trF.fm trF.rootPageId = .ok ⟨2, false, [20], [0, 1], none, none⟩ := by
  rfl

set_option maxRecDepth 40000 in
set_option maxHeartbeats 4000000 in
theorem trace_child1 :
    readNode trF.fm 1 = .ok ⟨1, true, [20, 25], [], some [['d'], ['e']], none⟩ := by
  rfl

set_option maxRecDepth 40000 in
set_option maxHeartbeats 4000000 in
theorem trace_child0 : readNode trF.fm 0 = .error .emptyPage := by rfl

/-- The full put sequence of the concrete scenario, from a fresh store. -/
def insertTrace : Except Err BPlusTree := do
  let fm ← FileManager.create [] 128
  let t0 ← BPlusTree.create fm 4
  let t1 ← t0.insert 5 ['a']
  let t2 ← t1.insert 10 ['b']
  let t3 ← t2.insert 15 ['c']
  let t4 ← t3.insert 20 ['d']
  t4.insert 25 ['e']

theorem insertTrace_ok : insertTrace = .ok trF := by
  have hc1 : FileManager.create [] 128 = .ok ⟨128, [], 0⟩ := rfl
  have hc2 : BPlusTree.create ⟨128, [], 0⟩ 4 = .ok trA := by
    have := trace_create
    rw [hc1, except_ok_bind] at this
    exact this
  unfold insertTrace
  rw [hc1, except_ok_bind, hc2, except_ok_bind, trace_put5, except_ok_bind,
    trace_put10, except_ok_bind, trace_put15, except_ok_bind,
    trace_put20, except_ok_bind, trace_put25]

/-! ## Claim C1 -/

/-- **C1 is refuted.** Search completeness fails: from a fresh tree
(order 4, page size 128), after `put 5 "a"`, `put 10 "b"`, `put 15 "c"`,
`put 20 "d"`, `put 25 "e"` — five distinct keys, none overwritten —
`get 5` does not return `"a"`: it fails with `EmptyPage`, because the
allocation of the new root during the fifth insert rewrites the first page
of the file with zeros and destroys the left leaf holding key 5. -/
theorem c1_search_completeness_counterexample :
    (insertTrace >>= fun t => t.search 5) = .error .emptyPage ∧
    ∀ v : Option Str, (insertTrace >>= fun t => t.search 5) ≠ .ok v := by
  have h : (insertTrace >>= fun t => t.search 5) = .error .emptyPage := by
    rw [insertTrace_ok, except_ok_bind, trace_search5]
  exact ⟨h, fun v hv => by rw [h] at hv; cases hv⟩

/-! ## Claim C4 -/

/-- **C4 is refuted.** Range correctness fails on the same execution: after
putting 5, 10, 15, 20, 25, `range 5 25` does not return the five inserted
pairs in ascending order — it fails with `EmptyPage`, because the walk
starts at the leaf chosen for key 5, whose page was zeroed by the root
allocation of the fifth insert. -/
theorem c4_range_counterexample :
    (insertTrace >>= fun t => t.range 5 25) = .error .emptyPage ∧
    (insertTrace >>= fun t => t.range 5 25) ≠
      .ok [(5, ['a']), (10, ['b']), (15, ['c']), (20, ['d']), (25, ['e'])] := by
  have h : (insertTrace >>= fun t => t.range 5 25) = .error .emptyPage := by
    rw [insertTrace_ok, except_ok_bind, trace_range]
  exact ⟨h, fun hv => by rw [h] at hv; cases hv⟩

/-! ## Claim C6 -/

/-- **C6 is refuted.** In the concrete scenario (order 4; put 5, 10, 15,
20, 25) the final root holds the single key 20 — not 15, the third key of
the overflowing leaf claimed by the spec — because the leaf split takes
`mid = ⌈5/2⌉ = 3` and promotes `keys[3] = 20`, partitioning the keys
`\x7b5,10,15\x7d` / `\x7b20,25\x7d` rather than `\x7b5,10\x7d` /
`\x7b15,20,25\x7d`; moreover the left child's page was zeroed by the root
allocation, so reading it fails and `get 15` fails with `EmptyPage` instead
of returning `"c"`. -/
theorem c6_concrete_split_counterexample :
    (insertTrace >>= fun t => readNode t.fm t.rootPageId) =
      .ok ⟨2, false, [20], [0, 1], none, none⟩ ∧
    ([20] : List Int) ≠ [15] ∧
    (insertTrace >>= fun t => readNode t.fm 1) =
      .ok ⟨1, true, [20, 25], [], some [['d'], ['e']], none⟩ ∧
    ([20, 25] : List Int) ≠ [15, 20, 25] ∧
    (insertTrace >>= fun t => readNode t.fm 0) = .error .emptyPage ∧
    (insertTrace >>= fun t => t.search 15) = .error .emptyPage ∧
    (insertTrace >>= fun t => t.search 15) ≠ .ok (some ['c']) := by
  have hroot : (insertTrace >>= fun t => readNode t.fm t.rootPageId) =
      .ok ⟨2, false, [20], [0, 1], none, none⟩ := by
    rw [insertTrace_ok, except_ok_bind, trace_root]
  have hc1 : (insertTrace >>= fun t => readNode t.fm 1) =
      .ok ⟨1, true, [20, 25], [], some [['d'], ['e']], none⟩ := by
    rw [insertTrace_ok, except_ok_bind, trace_child1]
  have hc0 : (insertTrace >>= fun t => readNode t.fm 0) = .error .emptyPage := by
    rw [insertTrace_ok, except_ok_bind, trace_child0]
  have hs : (insertTrace >>= fun t => t.search 15) = .error .emptyPage := by
    rw [insertTrace_ok, except_ok_bind, trace_search15]
  exact ⟨hroot, by decide, hc1, by decide, hc0, hs,
    fun hv => by rw [hs] at hv; cases hv⟩

end MiniDB
